import Mathlib

/-!
cinexo: the Board state machine of `cmd/main.go`.

A shallow embedding of the `Board` type and its methods, followed by theorems
about selection toggling, match evaluation and board assembly.

Modelling conventions.

* Go slices are Lean lists.  No two live slices of the program share a backing
  array while one of them is written, so value semantics is exact.
* `map[string][]Word` is an association list with at most one entry per key;
  `mapSet` overwrites the entry of a key or adds one.  Iteration order of a Go
  map is unspecified, so the catalog handed to `assembleBoard` is the list of
  its entries in the order the `range` loop happens to visit them.
* `-1` returned by the two index searches is `none`.
* A run-time panic (index or slice bound out of range) is `none` in the
  `Option` result of the operation that would raise it.
* `selectedAmount` is a Go `int`.  It moves by one per toggled word and is reset
  to zero by every evaluation, so it stays far inside the 64-bit range and is
  modelled by `Int` without wrap-around.
* Printing (`println`, `displayAttemptsAmount`) has no effect on the board and
  is left out.
-/

namespace Cinexo

/-- The Go struct `Word`. -/
structure Word where
  word : String
  selected : Bool
  category : String
deriving DecidableEq, Repr

/-- The Go struct `Board`. -/
structure Board where
  words : List Word
  selectedAmount : Int
  selectedWords : List Word
  matchedWords : List (String × List Word)
  attempts : List Bool
deriving DecidableEq, Repr

/-- Reading `m[k]` from a Go map: the entry of key `k`, if any. -/
def mapGet (m : List (String × List Word)) (k : String) : Option (List Word) :=
  match m with
  | [] => none
  | e :: rest => if e.1 = k then some e.2 else mapGet rest k

/-- The assignment `m[k] = v` on a Go map. -/
def mapSet (m : List (String × List Word)) (k : String) (v : List Word) :
    List (String × List Word) :=
  match m with
  | [] => [(k, v)]
  | e :: rest => if e.1 = k then (k, v) :: rest else e :: mapSet rest k v

/-- `Board.addWord`. -/
def addWord (b : Board) (word : String) (category : String) : Board :=
  { b with words := b.words ++ [⟨word, false, category⟩] }

/-- `Board.findWordIndex`: index of the first word with the given text. -/
def findWordIndex (words : List Word) (word : String) : Option Nat :=
  match words with
  | [] => none
  | w :: rest =>
    if w.word = word then some 0
    else (findWordIndex rest word).map (fun i => i + 1)

/-- `Board.findSelectedWordIndex`: the same search in the selection. -/
def findSelectedWordIndex (selectedWords : List Word) (word : String) : Option Nat :=
  match selectedWords with
  | [] => none
  | w :: rest =>
    if w.word = word then some 0
    else (findSelectedWordIndex rest word).map (fun i => i + 1)

/-- `Board.resetSelection`. -/
def resetSelection (b : Board) : Board :=
  { b with selectedWords := [], selectedAmount := 0 }

/-- `Board.addAttempt`. -/
def addAttempt (b : Board) (success : Bool) : Board :=
  let b1 := resetSelection b
  { b1 with attempts := b1.attempts ++ [success] }

/-- `Board.deSelectWord`: `append(s[:index], s[index+1:]...)`, which panics
when `index + 1` exceeds the length. -/
def deSelectWord (b : Board) (index : Nat) : Option Board :=
  if index < b.selectedWords.length then
    some { b with selectedWords := b.selectedWords.take index ++ b.selectedWords.drop (index + 1) }
  else none

/-- `Board.removeWord`: the same splice on `words`. -/
def removeWord (b : Board) (index : Nat) : Option Board :=
  if index < b.words.length then
    some { b with words := b.words.take index ++ b.words.drop (index + 1) }
  else none

/-- The first loop of `tryMatch` over the selection, from the given position
on: `matchedWords` is the accumulator.  The result is `none` on a panic,
`some none` when a category differs (the early return), and `some (some ms)`
when the loop runs to its end. -/
def tryMatchCollect (b : Board) (category : String) :
    List Word → List Word → Option (Option (List Word))
  | [], matchedWords => some (some matchedWords)
  | w :: rest, matchedWords =>
    match findWordIndex b.words w.word with
    | some index =>
      match b.words[index]? with
      | none => none
      | some wi =>
        if wi.category ≠ category then some none
        else tryMatchCollect b category rest (matchedWords ++ [wi])
    | none => tryMatchCollect b category rest matchedWords

/-- The second loop of `tryMatch`: remove every collected word that is still
found. -/
def tryMatchRemove : List Word → Board → Option Board
  | [], b => some b
  | w :: rest, b =>
    match findWordIndex b.words w.word with
    | some index => (removeWord b index).bind (tryMatchRemove rest)
    | none => tryMatchRemove rest b

/-- `Board.tryMatch`. -/
def tryMatch (b : Board) : Option Board :=
  match b.selectedWords[0]? with
  | none => none
  | some first =>
    let category := first.category
    match tryMatchCollect b category b.selectedWords [] with
    | none => none
    | some none => some (addAttempt b false)
    | some (some matchedWords) =>
      let b1 := { b with matchedWords := mapSet b.matchedWords category matchedWords }
      (tryMatchRemove matchedWords b1).map (fun b2 => addAttempt b2 true)

/-- The body of the `range` loop of `clickWord` for a word whose text matches:
`i` is the loop index and `w` the element copy, taken before the body runs. -/
def clickWordBody (b : Board) (i : Nat) (w : Word) : Option Board :=
  match b.words[i]? with
  | none => none
  | some wi =>
    let b1 := { b with words := b.words.set i { wi with selected := !wi.selected } }
    if (!wi.selected) = true then
      some { b1 with selectedAmount := b1.selectedAmount + 1,
                     selectedWords := b1.selectedWords ++ [w] }
    else
      let b2 := { b1 with selectedAmount := b1.selectedAmount - 1 }
      match findSelectedWordIndex b2.selectedWords w.word with
      | some index => deSelectWord b2 index
      | none => some b2

/-- The `range` loop of `clickWord`.  The slice header is read once, so the
loop visits the words of the snapshot `ws`, starting at index `i`, while the
body writes to the live `b.words[i]`. -/
def clickWordLoop (word : String) : List Word → Nat → Board → Option Board
  | [], _, b => some b
  | w :: rest, i, b =>
    if w.word = word then (clickWordBody b i w).bind (clickWordLoop word rest (i + 1))
    else clickWordLoop word rest (i + 1) b

/-- `Board.clickWord`. -/
def clickWord (b : Board) (word : String) : Option Board :=
  (clickWordLoop word b.words 0 b).bind fun b1 =>
    if b1.selectedAmount = 4 then tryMatch b1 else some b1

/-- `Board.addLine`: the new board and the returned error (`none` is `nil`). -/
def addLine (b : Board) (line : List String) (category : String) : Board × Option String :=
  if line.length ≠ 4 then (b, some "a line must have 4 words")
  else (line.foldl (fun acc word => addWord acc word category) b, none)

/-- `assembleBoard`: the catalog is the list of map entries in iteration order.
The error returned by `addLine` is dropped, as in the source. -/
def assembleBoard (words : List (String × List String)) : Board :=
  words.foldl (fun b entry => (addLine b entry.2 entry.1).1) ⟨[], 0, [], [], []⟩

/-- A sequence of `clickWord` calls, stopping at the first panic. -/
def clickWords (b : Board) : List String → Option Board
  | [] => some b
  | t :: ts => (clickWord b t).bind (fun b1 => clickWords b1 ts)

/-- The catalog of `main`. -/
def mainCatalog : List (String × List String) :=
  [("animals", ["dog", "cat", "bird", "fish"]),
   ("colors", ["red", "blue", "green", "yellow"]),
   ("fruits", ["apple", "banana", "watermelon", "grape"]),
   ("shapes", ["circle", "square", "triangle", "rectangle"])]

/-! ## Notions used in the statements -/

/-- The texts of a list of words, in order. -/
def texts (ws : List Word) : List String := ws.map Word.word

/-- Flip the `selected` flag of every word with text `t`. -/
def toggle (t : String) (ws : List Word) : List Word :=
  ws.map (fun x => if x.word = t then { x with selected := !x.selected } else x)

/-- Remove the first word with text `t`. -/
def dropText (t : String) (ws : List Word) : List Word :=
  ws.eraseP (fun x => decide (x.word = t))

/-- The word with its `selected` flag set. -/
def Word.marked (w : Word) : Word := { w with selected := true }

/-- The words of `ws` that the selection `sel` refers to: for each selected
word, the first word of `ws` with its text, when there is one. -/
def liveWords (ws sel : List Word) : List Word :=
  sel.filterMap (fun s => ws.find? (fun x => decide (x.word = s.word)))

/-- Remove, for each word of `ms` in turn, the first word with its text. -/
def dropAll (ms ws : List Word) : List Word :=
  ms.foldl (fun acc m => dropText m.word acc) ws

/-- Set the `selected` flag of every word whose text is the text of a word of `sel`. -/
def markAll (sel ws : List Word) : List Word :=
  ws.map (fun x => if x.word ∈ texts sel then x.marked else x)

/-- The board of `main` before shuffling, categories visited in source order. -/
def mainBoard : Board := assembleBoard mainCatalog

/-- A word as `addWord` stores it. -/
def freshWord (word category : String) : Word := ⟨word, false, category⟩

/-- The boards the game can be in: the assembled board of a catalog and
whatever `clickWord` returns from there, for any text. -/
inductive Reachable (catalog : List (String × List String)) : Board → Prop
  | start : Reachable catalog (assembleBoard catalog)
  | click (b b1 : Board) (t : String) :
      Reachable catalog b → clickWord b t = some b1 → Reachable catalog b1

/-- The boards the code produces: what `assembleBoard` returns for some catalog,
and what `clickWord` returns, from any board and for any text. -/
def Produced (b : Board) : Prop :=
  (∃ catalog, assembleBoard catalog = b) ∨ (∃ b0 t, clickWord b0 t = some b)

/-- Number of words whose `selected` flag is set. -/
def selectedCount (ws : List Word) : Nat := ws.countP (fun x => x.selected)

/-- Number of failed attempts in the history. -/
def failures (attempts : List Bool) : Nat := attempts.countP (fun a => !a)

/-- No category has more than 4 words in the list. -/
def CategoryBound (ws : List Word) : Prop :=
  ∀ c : String, ws.countP (fun x => decide (x.category = c)) ≤ 4

/-- The bookkeeping that `clickWord` keeps on a board with pairwise different
texts and at most 4 words per category: every failed attempt leaves 4 flags set
that the counter no longer accounts for. -/
def Accounted (b : Board) : Prop :=
  (texts b.words).Nodup ∧ CategoryBound b.words ∧
  b.selectedAmount + 4 * (failures b.attempts : Int) ≤ (selectedCount b.words : Int) ∧
  (b.words = [] → b.selectedAmount = 0)

/-- A catalog whose first category has only 3 words. -/
def shortCatalog : List (String × List String) :=
  [("animals", ["dog", "cat", "bird"]), ("colors", ["red", "blue", "green", "yellow"])]

/-- What identifies a word of the catalog: its text and its category. -/
def ident (x : Word) : String × String := (x.word, x.category)

/-- The words of a catalog with their categories, in catalog order. -/
def catalogWords (catalog : List (String × List String)) : List (String × String) :=
  catalog.flatMap (fun e => e.2.map (fun t => (t, e.1)))

/-- The concatenation of all matched groups. -/
def matchedList (m : List (String × List Word)) : List Word :=
  m.flatMap (fun e => e.2)

/-- A well-formed catalog: a map (no category twice) from categories to exactly
4 words each, no text occurring twice in the whole catalog. -/
def WellFormed (catalog : List (String × List String)) : Prop :=
  (∀ e ∈ catalog, e.2.length = 4) ∧ (catalog.map Prod.fst).Nodup ∧
  ((catalogWords catalog).map Prod.fst).Nodup

/-- The invariant of the game on a well-formed catalog. -/
structure GameInv (catalog : List (String × List String)) (b : Board) : Prop where
  conserved : ((b.words ++ matchedList b.matchedWords).map ident).Perm (catalogWords catalog)
  groups : ∀ e ∈ b.matchedWords, e.2.length = 4 ∧ ∀ x ∈ e.2, x.category = e.1
  keys : (b.matchedWords.map Prod.fst).Nodup
  selNodup : (texts b.selectedWords).Nodup
  selLive : ∀ s ∈ b.selectedWords,
    ∃ x ∈ b.words, x.word = s.word ∧ x.category = s.category ∧ x.selected = true
  amount : b.selectedAmount ≤ (b.selectedWords.length : Int)
  successes : b.attempts.count true = b.matchedWords.length

/-- The board of `main` after the four animals have been matched. -/
def animalsMatchedBoard : Board :=
  ⟨[freshWord "red" "colors", freshWord "blue" "colors", freshWord "green" "colors",
    freshWord "yellow" "colors", freshWord "apple" "fruits", freshWord "banana" "fruits",
    freshWord "watermelon" "fruits", freshWord "grape" "fruits", freshWord "circle" "shapes",
    freshWord "square" "shapes", freshWord "triangle" "shapes",
    freshWord "rectangle" "shapes"],
   0, [],
   [("animals", [(freshWord "dog" "animals").marked, (freshWord "cat" "animals").marked,
     (freshWord "bird" "animals").marked, (freshWord "fish" "animals").marked])],
   [true]⟩

/-- Whether a `clickWord` call reaches `tryMatch`: its loop ends with the
selected count at 4. -/
def evaluates (b : Board) (t : String) : Bool :=
  match clickWordLoop t b.words 0 b with
  | some b2 => decide (b2.selectedAmount = 4)
  | none => false

/-- The selection on a board with pairwise different texts: no text twice, and
every selected word stands on the board, with its category and its flag set. -/
structure SelInv (b : Board) : Prop where
  wordsNodup : (texts b.words).Nodup
  selNodup : (texts b.selectedWords).Nodup
  selLive : ∀ s ∈ b.selectedWords,
    ∃ x ∈ b.words, x.word = s.word ∧ x.category = s.category ∧ x.selected = true

/-- The board of `main` after one click on `dog`. -/
def dogSelectedBoard : Board :=
  ⟨markAll [freshWord "dog" "animals"] mainBoard.words, 1, [freshWord "dog" "animals"], [], []⟩

/-- The board of `main` with the four animals selected, as `tryMatch` finds it. -/
def animalsSelectedBoard : Board :=
  ⟨markAll [freshWord "dog" "animals", freshWord "cat" "animals", freshWord "bird" "animals",
      freshWord "fish" "animals"] mainBoard.words,
    4,
    [freshWord "dog" "animals", freshWord "cat" "animals", freshWord "bird" "animals",
      freshWord "fish" "animals"],
    [], []⟩

/-- The board of `main` after clicks on `dog`, `cat` and `bird`. -/
def threeAnimalsBoard : Board :=
  ⟨markAll [freshWord "dog" "animals", freshWord "cat" "animals", freshWord "bird" "animals"]
      mainBoard.words,
    3,
    [freshWord "dog" "animals", freshWord "cat" "animals", freshWord "bird" "animals"],
    [], []⟩

/-- The list `order` plays the catalog: it has the categories of the catalog in
some order, each with its words in some order. -/
def PlaysCatalog (catalog order : List (String × List String)) : Prop :=
  ∃ visited : List (String × List String), visited.Perm catalog ∧
    List.Forall₂ (fun p e => p.1 = e.1 ∧ p.2.Perm e.2) order visited

/-- The group stored for a played category: its words in the order played, as
they stand on the board when they are evaluated. -/
def playedGroup (p : String × List String) : List Word :=
  p.2.map (fun t => (freshWord t p.1).marked)

/-- The four categories of `main` in another order, each with its words in
another order. -/
def mainReplay : List (String × List String) :=
  [("shapes", ["square", "circle", "rectangle", "triangle"]),
   ("animals", ["fish", "dog", "bird", "cat"]),
   ("fruits", ["apple", "banana", "watermelon", "grape"]),
   ("colors", ["yellow", "green", "blue", "red"])]

/-! ## The association list standing for the Go map -/

theorem mapGet_mapSet_same (m : List (String × List Word)) (k : String) (v : List Word) :
    mapGet (mapSet m k v) k = some v := by
  induction m with
  | nil => simp [mapSet, mapGet]
  | cons e rest ih =>
    by_cases h : e.1 = k
    · simp [mapSet, mapGet, h]
    · simp [mapSet, mapGet, h, ih]

theorem mapGet_mapSet_other (m : List (String × List Word)) (k k' : String) (v : List Word)
    (hk : k' ≠ k) : mapGet (mapSet m k v) k' = mapGet m k' := by
  induction m with
  | nil => simp [mapSet, mapGet, Ne.symm hk]
  | cons e rest ih =>
    by_cases h : e.1 = k
    · have h' : e.1 ≠ k' := fun h2 => hk (h2.symm.trans h)
      simp [mapSet, mapGet, h, h', Ne.symm hk]
    · by_cases h2 : e.1 = k'
      · simp [mapSet, mapGet, h2, hk]
      · simp [mapSet, mapGet, h, h2, ih]

/-! ## Index searches -/

theorem findSelectedWordIndex_eq (s : List Word) (t : String) :
    findSelectedWordIndex s t = findWordIndex s t := by
  induction s with
  | nil => rfl
  | cons w rest ih => simp [findSelectedWordIndex, findWordIndex, ih]

theorem findWordIndex_none (ws : List Word) (t : String) (h : ∀ w ∈ ws, w.word ≠ t) :
    findWordIndex ws t = none := by
  induction ws with
  | nil => rfl
  | cons w rest ih =>
    have h1 : w.word ≠ t := h w (List.mem_cons_self _ _)
    have h2 : ∀ x ∈ rest, x.word ≠ t := fun x hx => h x (List.mem_cons_of_mem _ hx)
    simp [findWordIndex, h1, ih h2]

theorem findWordIndex_append (pre post : List Word) (w : Word)
    (h : ∀ x ∈ pre, x.word ≠ w.word) :
    findWordIndex (pre ++ w :: post) w.word = some pre.length := by
  induction pre with
  | nil => simp [findWordIndex]
  | cons x rest ih =>
    have h1 : x.word ≠ w.word := h x (List.mem_cons_self _ _)
    have h2 : ∀ y ∈ rest, y.word ≠ w.word := fun y hy => h y (List.mem_cons_of_mem _ hy)
    simp [findWordIndex, h1, ih h2]

/-- Splitting a list with pairwise different texts at one of its words. -/
theorem split_of_mem (ws : List Word) (w : Word) (hnd : (ws.map Word.word).Nodup)
    (hw : w ∈ ws) :
    ∃ pre post, ws = pre ++ w :: post ∧ (∀ x ∈ pre, x.word ≠ w.word) ∧
      (∀ x ∈ post, x.word ≠ w.word) := by
  obtain ⟨pre, post, rfl⟩ := List.append_of_mem hw
  refine ⟨pre, post, rfl, ?_, ?_⟩
  · intro x hx hxw
    rw [List.map_append, List.map_cons, List.nodup_append] at hnd
    exact hnd.2.2 (List.mem_map_of_mem _ hx) (by simp [hxw])
  · intro x hx hxw
    rw [List.map_append, List.map_cons, List.nodup_append, List.nodup_cons] at hnd
    exact hnd.2.1.1 (by rw [← hxw]; exact List.mem_map_of_mem _ hx)

theorem findWordIndex_splice (s : List Word) (t : String) :
    (∀ i, findWordIndex s t = some i →
      i < s.length ∧ s.take i ++ s.drop (i + 1) = dropText t s) ∧
    (findWordIndex s t = none → dropText t s = s) := by
  induction s with
  | nil => simp [findWordIndex, dropText]
  | cons w rest ih =>
    by_cases h : w.word = t
    · simp [findWordIndex, dropText, h]
    · constructor
      · intro i hi
        simp only [findWordIndex, h, if_false, Option.map_eq_some'] at hi
        obtain ⟨j, hj, rfl⟩ := hi
        have := ih.1 j hj
        simp only [dropText] at this ⊢
        simp [h, this.1, this.2]
      · intro hn
        simp only [findWordIndex, h, if_false, Option.map_eq_none'] at hn
        have := ih.2 hn
        simp only [dropText] at this ⊢
        simp [h, this]

/-! ## The loop of `clickWord` -/

theorem clickWordLoop_absent (t : String) (ws : List Word) (i : Nat) (b : Board)
    (h : ∀ w ∈ ws, w.word ≠ t) : clickWordLoop t ws i b = some b := by
  induction ws generalizing i with
  | nil => rfl
  | cons w rest ih =>
    have h1 : w.word ≠ t := h w (List.mem_cons_self _ _)
    have h2 : ∀ x ∈ rest, x.word ≠ t := fun x hx => h x (List.mem_cons_of_mem _ hx)
    simp [clickWordLoop, h1, ih (i + 1) h2]

theorem clickWordLoop_single (pre post : List Word) (w : Word) (i : Nat) (b : Board)
    (hpre : ∀ x ∈ pre, x.word ≠ w.word) (hpost : ∀ x ∈ post, x.word ≠ w.word) :
    clickWordLoop w.word (pre ++ w :: post) i b = clickWordBody b (i + pre.length) w := by
  induction pre generalizing i with
  | nil =>
    simp only [List.nil_append, clickWordLoop, if_true, List.length_nil, Nat.add_zero]
    cases clickWordBody b i w with
    | none => rfl
    | some b1 => simp [clickWordLoop_absent _ _ _ _ hpost]
  | cons x rest ih =>
    have h1 : x.word ≠ w.word := hpre x (List.mem_cons_self _ _)
    have h2 : ∀ y ∈ rest, y.word ≠ w.word := fun y hy => hpre y (List.mem_cons_of_mem _ hy)
    show clickWordLoop w.word (x :: (rest ++ w :: post)) i b = _
    simp only [clickWordLoop, h1, if_false, List.length_cons]
    rw [ih (i + 1) h2]
    congr 1
    omega

theorem toggle_split (pre post : List Word) (w : Word)
    (hpre : ∀ x ∈ pre, x.word ≠ w.word) (hpost : ∀ x ∈ post, x.word ≠ w.word) :
    toggle w.word (pre ++ w :: post) = pre ++ { w with selected := !w.selected } :: post := by
  have e1 : pre.map (fun x => if x.word = w.word then { x with selected := !x.selected } else x)
      = pre := by
    conv_rhs => rw [← List.map_id pre]
    apply List.map_congr_left
    intro x hx
    simp [hpre x hx]
  have e2 : post.map (fun x => if x.word = w.word then { x with selected := !x.selected } else x)
      = post := by
    conv_rhs => rw [← List.map_id post]
    apply List.map_congr_left
    intro x hx
    simp [hpost x hx]
  simp [toggle, e1, e2]

/-- One pass of the loop of `clickWord` on a board with pairwise different
texts, for the text of a word on the board: the word is toggled, and the
selection and its counter follow. -/
theorem clickWordLoop_present (b : Board) (w : Word)
    (hnd : (texts b.words).Nodup) (hw : w ∈ b.words) :
    clickWordLoop w.word b.words 0 b =
      some { b with
        words := toggle w.word b.words
        selectedAmount := if w.selected then b.selectedAmount - 1 else b.selectedAmount + 1
        selectedWords :=
          if w.selected then dropText w.word b.selectedWords else b.selectedWords ++ [w] } := by
  obtain ⟨pre, post, hsplit, hpre, hpost⟩ := split_of_mem b.words w hnd hw
  have hloop := clickWordLoop_single pre post w 0 b hpre hpost
  rw [← hsplit] at hloop
  have hget : b.words[pre.length]? = some w := by
    rw [hsplit, List.getElem?_append_right (Nat.le_refl _)]
    simp
  have hset : b.words.set pre.length { w with selected := !w.selected } =
      toggle w.word b.words := by
    rw [hsplit, toggle_split pre post w hpre hpost]
    simp
  have hsel := findWordIndex_splice b.selectedWords w.word
  rw [hloop]
  simp only [Nat.zero_add, clickWordBody, hget, hset]
  cases hws : w.selected with
  | false => simp
  | true =>
    simp only [Bool.not_true, if_true, findSelectedWordIndex_eq]
    cases hf : findWordIndex b.selectedWords w.word with
    | none => simp [hsel.2 hf]
    | some idx => simp [deSelectWord, (hsel.1 idx hf).1, (hsel.1 idx hf).2]

/-! ## The two loops of `tryMatch` -/

theorem findWordIndex_find (ws : List Word) (t : String) :
    (findWordIndex ws t = none ∧ ws.find? (fun x => decide (x.word = t)) = none) ∨
    (∃ i x, findWordIndex ws t = some i ∧ ws[i]? = some x ∧
      ws.find? (fun x => decide (x.word = t)) = some x) := by
  induction ws with
  | nil => left; simp [findWordIndex]
  | cons w rest ih =>
    by_cases h : w.word = t
    · right; exact ⟨0, w, by simp [findWordIndex, h], by simp, by simp [h]⟩
    · rcases ih with ⟨h1, h2⟩ | ⟨i, x, h1, h2, h3⟩
      · left; simp [findWordIndex, h, h1, h2]
      · right; exact ⟨i + 1, x, by simp [findWordIndex, h, h1], by simp [h2], by simp [h, h3]⟩

/-- The first loop of `tryMatch` never panics: it collects the live words of the
selection, or stops at the first of them with another category. -/
theorem tryMatchCollect_eq (b : Board) (c : String) (sel acc : List Word) :
    tryMatchCollect b c sel acc =
      some (if (liveWords b.words sel).all (fun x => decide (x.category = c))
        then some (acc ++ liveWords b.words sel) else none) := by
  induction sel generalizing acc with
  | nil => simp [tryMatchCollect, liveWords]
  | cons s rest ih =>
    rcases findWordIndex_find b.words s.word with ⟨h1, h2⟩ | ⟨i, x, h1, h2, h3⟩
    · have hl : liveWords b.words (s :: rest) = liveWords b.words rest := by
        simp [liveWords, List.filterMap_cons, h2]
      simp only [tryMatchCollect, h1, hl]
      exact ih acc
    · have hl : liveWords b.words (s :: rest) = x :: liveWords b.words rest := by
        simp [liveWords, List.filterMap_cons, h3]
      simp only [tryMatchCollect, h1, h2, hl]
      by_cases hc : x.category = c
      · simp [hc, ih]
      · simp [hc]

/-- The second loop of `tryMatch` never panics. -/
theorem tryMatchRemove_eq (ms : List Word) (b : Board) :
    tryMatchRemove ms b = some { b with words := dropAll ms b.words } := by
  induction ms generalizing b with
  | nil => simp [tryMatchRemove, dropAll]
  | cons m rest ih =>
    have hs := findWordIndex_splice b.words m.word
    cases hf : findWordIndex b.words m.word with
    | none =>
      simp only [tryMatchRemove, hf]
      rw [ih b]
      simp [dropAll, hs.2 hf]
    | some idx =>
      simp only [tryMatchRemove, hf, removeWord, (hs.1 idx hf).1, if_true, Option.some_bind]
      rw [ih]
      simp [dropAll, (hs.1 idx hf).2]

/-- What `tryMatch` does on a board with a non-empty selection. -/
theorem tryMatch_eq (b : Board) (first : Word) (rest : List Word)
    (hs : b.selectedWords = first :: rest) :
    tryMatch b = some (
      if (liveWords b.words b.selectedWords).all (fun x => decide (x.category = first.category))
      then addAttempt { b with
        words := dropAll (liveWords b.words b.selectedWords) b.words
        matchedWords := mapSet b.matchedWords first.category
          (liveWords b.words b.selectedWords) } true
      else addAttempt b false) := by
  have h0 : b.selectedWords[0]? = some first := by simp [hs]
  simp only [tryMatch, h0, tryMatchCollect_eq]
  split_ifs with h
  · simp [tryMatchRemove_eq]
  · rfl

/-! ## Boards with pairwise different texts -/

theorem eq_of_word_eq (ws : List Word) (x y : Word) (hnd : (texts ws).Nodup)
    (hx : x ∈ ws) (hy : y ∈ ws) (h : x.word = y.word) : x = y :=
  List.inj_on_of_nodup_map hnd hx hy h

theorem find_of_mem (ws : List Word) (x : Word) (hnd : (texts ws).Nodup) (hx : x ∈ ws) :
    ws.find? (fun y => decide (y.word = x.word)) = some x := by
  cases hf : ws.find? (fun y => decide (y.word = x.word)) with
  | none =>
    have := List.find?_eq_none.1 hf x hx
    simp at this
  | some y =>
    have h1 := List.find?_some hf
    have h2 := List.mem_of_find?_eq_some hf
    simp only [decide_eq_true_eq] at h1
    rw [eq_of_word_eq ws y x hnd h2 hx h1]

theorem dropText_eq_filter (ws : List Word) (t : String) (hnd : (texts ws).Nodup) :
    dropText t ws = ws.filter (fun x => decide (x.word ≠ t)) := by
  induction ws with
  | nil => rfl
  | cons w rest ih =>
    have hnd' : (texts rest).Nodup := (List.nodup_cons.1 hnd).2
    by_cases h : w.word = t
    · have hno : ∀ x ∈ rest, x.word ≠ t := by
        intro x hx hxt
        exact (List.nodup_cons.1 hnd).1 (by
          show w.word ∈ texts rest
          rw [h, ← hxt]; exact List.mem_map_of_mem _ hx)
      have : rest.filter (fun x => !decide (x.word = t)) = rest := by
        apply List.filter_eq_self.2
        intro x hx
        simpa using hno x hx
      simp [dropText, h, this]
    · have := ih hnd'
      simp only [dropText] at this ⊢
      simp [h, this]

theorem texts_filter_nodup (ws : List Word) (p : Word → Bool) (hnd : (texts ws).Nodup) :
    (texts (ws.filter p)).Nodup :=
  List.Nodup.sublist (List.Sublist.map _ (List.filter_sublist _)) hnd

theorem dropAll_eq_filter (ms ws : List Word) (hnd : (texts ws).Nodup) :
    dropAll ms ws = ws.filter (fun x => decide (x.word ∉ texts ms)) := by
  induction ms generalizing ws with
  | nil => simp [dropAll, texts]
  | cons m rest ih =>
    have h1 : dropAll (m :: rest) ws = dropAll rest (dropText m.word ws) := rfl
    rw [h1, dropText_eq_filter ws m.word hnd, ih _ (texts_filter_nodup ws _ hnd),
      List.filter_filter]
    apply List.filter_congr
    intro x _
    have ht : texts (m :: rest) = m.word :: texts rest := rfl
    by_cases ha : x.word = m.word <;> by_cases hb : x.word ∈ texts rest <;>
      simp only [ht, List.mem_cons, ha, hb, ne_eq, not_true_eq_false, not_false_eq_true,
        decide_True, decide_False, Bool.and_self, Bool.and_true, Bool.and_false, true_or,
        or_true, or_false, false_or]

theorem texts_toggle (t : String) (ws : List Word) : texts (toggle t ws) = texts ws := by
  simp only [texts, toggle, List.map_map]
  apply List.map_congr_left
  intro x _
  by_cases h : x.word = t <;> simp [h]

theorem texts_markAll (sel ws : List Word) : texts (markAll sel ws) = texts ws := by
  simp only [texts, markAll, List.map_map]
  apply List.map_congr_left
  intro x _
  show (if x.word ∈ texts sel then x.marked else x).word = x.word
  split_ifs <;> rfl

theorem markAll_append (l1 l2 ws : List Word) :
    markAll l2 (markAll l1 ws) = markAll (l1 ++ l2) ws := by
  simp only [markAll, List.map_map]
  apply List.map_congr_left
  intro x _
  have ht : texts (l1 ++ l2) = texts l1 ++ texts l2 := List.map_append _ _ _
  have hm : x.marked.word = x.word := rfl
  have hmm : x.marked.marked = x.marked := rfl
  by_cases h1 : x.word ∈ texts l1 <;> by_cases h2 : x.word ∈ texts l2 <;>
    simp only [Function.comp_apply, ht, List.mem_append, h1, h2, hm, hmm, if_true, if_false,
      true_or, or_true, or_false]

theorem markAll_nil (ws : List Word) : markAll [] ws = ws := by
  simp [markAll, texts]

theorem mem_markAll_of_not_mem (sel ws : List Word) (x : Word) (hx : x ∈ ws)
    (h : x.word ∉ texts sel) : x ∈ markAll sel ws := by
  simp only [markAll, List.mem_map]
  exact ⟨x, hx, by rw [if_neg h]⟩

theorem marked_mem_markAll (sel ws : List Word) (x : Word) (hx : x ∈ ws)
    (h : x ∈ sel) : x.marked ∈ markAll sel ws := by
  simp only [markAll, List.mem_map]
  have hm : x.word ∈ texts sel := List.mem_map_of_mem Word.word h
  exact ⟨x, hx, by rw [if_pos hm]⟩

/-- Toggling the text of an unselected word of the board sets its flag. -/
theorem toggle_eq_markAll (ws : List Word) (w : Word) (hnd : (texts ws).Nodup)
    (hw : w ∈ ws) (hsel : w.selected = false) : toggle w.word ws = markAll [w] ws := by
  simp only [toggle, markAll]
  apply List.map_congr_left
  intro x hx
  by_cases h : x.word = w.word
  · have := eq_of_word_eq ws x w hnd hx hw h
    subst this
    simp [texts, Word.marked, hsel]
  · have h' : x.word ∉ texts [w] := by simpa [texts] using h
    rw [if_neg h, if_neg h']

theorem liveWords_marked (ws sel : List Word) (hnd : (texts ws).Nodup)
    (h : ∀ x ∈ sel, x.marked ∈ ws) : liveWords ws sel = sel.map Word.marked := by
  induction sel with
  | nil => rfl
  | cons x rest ih =>
    have h1 := find_of_mem ws x.marked hnd (h x (List.mem_cons_self _ _))
    have h2 := ih (fun y hy => h y (List.mem_cons_of_mem _ hy))
    have hm : x.marked.word = x.word := rfl
    rw [hm] at h1
    simp only [liveWords] at h2 ⊢
    simp [List.filterMap_cons, h1, h2]

theorem filter_markAll (sel ws : List Word) :
    (markAll sel ws).filter (fun x => decide (x.word ∉ texts sel)) =
      ws.filter (fun x => decide (x.word ∉ texts sel)) := by
  induction ws with
  | nil => rfl
  | cons w rest ih =>
    have hc : markAll sel (w :: rest) =
        (if w.word ∈ texts sel then w.marked else w) :: markAll sel rest := rfl
    have hm : w.marked.word = w.word := rfl
    rw [hc]
    by_cases h : w.word ∈ texts sel
    · rw [if_pos h]
      simpa [List.filter_cons, h, hm] using ih
    · rw [if_neg h]
      simpa [List.filter_cons, h] using ih

theorem filter_text_eq_filter_mem (sel ws : List Word) (hnd : (texts ws).Nodup)
    (h : ∀ x ∈ sel, x ∈ ws) :
    ws.filter (fun x => decide (x.word ∉ texts sel)) =
      ws.filter (fun x => decide (x ∉ sel)) := by
  apply List.filter_congr
  intro x hx
  have : x.word ∈ texts sel ↔ x ∈ sel := by
    constructor
    · intro hm
      obtain ⟨y, hy, hyx⟩ := List.mem_map.1 hm
      rw [← eq_of_word_eq ws y x hnd (h y hy) hx hyx]
      exact hy
    · intro hm
      exact List.mem_map_of_mem _ hm
  simp only [this]

/-! ## Selecting words -/

theorem clickWords_append (b : Board) (l1 l2 : List String) :
    clickWords b (l1 ++ l2) = (clickWords b l1).bind (fun b1 => clickWords b1 l2) := by
  induction l1 generalizing b with
  | nil => rfl
  | cons t rest ih =>
    show (clickWord b t).bind (fun b1 => clickWords b1 (rest ++ l2)) =
      ((clickWord b t).bind (fun b1 => clickWords b1 rest)).bind (fun b1 => clickWords b1 l2)
    cases clickWord b t with
    | none => rfl
    | some b1 => simp [ih]

/-- The loop of `clickWord` on the text of an unselected word of the board. -/
theorem clickWordLoop_select (b : Board) (w : Word) (hnd : (texts b.words).Nodup)
    (hw : w ∈ b.words) (hsel : w.selected = false) :
    clickWordLoop w.word b.words 0 b =
      some { b with
        words := markAll [w] b.words
        selectedAmount := b.selectedAmount + 1
        selectedWords := b.selectedWords ++ [w] } := by
  rw [clickWordLoop_present b w hnd hw, toggle_eq_markAll b.words w hnd hw hsel]
  simp [hsel]

/-- Clicking unselected words of the board one after the other, as long as the
counter stays below 4, selects them in order. -/
theorem clickWords_select (b : Board) (sel : List Word) (hnd : (texts b.words).Nodup)
    (hmem : ∀ s ∈ sel, s ∈ b.words ∧ s.selected = false) (hdist : (texts sel).Nodup)
    (ha : b.selectedAmount + sel.length < 4) :
    clickWords b (texts sel) =
      some { b with
        words := markAll sel b.words
        selectedAmount := b.selectedAmount + sel.length
        selectedWords := b.selectedWords ++ sel } := by
  induction sel generalizing b with
  | nil => simp [clickWords, texts, markAll_nil]
  | cons s rest ih =>
    have hs := hmem s (List.mem_cons_self _ _)
    have hd := List.nodup_cons.1 hdist
    have hlen : ((s :: rest).length : Int) = rest.length + 1 := by simp
    rw [hlen] at ha
    have hne : ¬ (b.selectedAmount + 1 = 4) := by omega
    show (clickWord b s.word).bind (fun b1 => clickWords b1 (texts rest)) = _
    simp only [clickWord, clickWordLoop_select b s hnd hs.1 hs.2, Option.some_bind, hne,
      if_false]
    rw [ih]
    · simp only [markAll_append, hlen]
      congr 2
      · omega
      · simp
    · simpa [texts_markAll] using hnd
    · intro r hr
      have hr' := hmem r (List.mem_cons_of_mem _ hr)
      refine ⟨mem_markAll_of_not_mem [s] b.words r hr'.1 ?_, hr'.2⟩
      intro hin
      have : r.word = s.word := by simpa [texts] using hin
      exact hd.1 (by rw [← this]; exact List.mem_map_of_mem _ hr)
    · exact hd.2
    · show b.selectedAmount + 1 + (rest.length : Int) < 4
      omega

/-- A full submission: on a board with pairwise different texts and an empty
selection, clicking four different unselected words of the board evaluates
them. -/
theorem clickWords_submit (b : Board) (w1 w2 w3 w4 : Word)
    (hnd : (texts b.words).Nodup) (hS : b.selectedWords = []) (ha : b.selectedAmount = 0)
    (hmem : ∀ s ∈ [w1, w2, w3, w4], s ∈ b.words ∧ s.selected = false)
    (hdist : (texts [w1, w2, w3, w4]).Nodup) :
    clickWords b [w1.word, w2.word, w3.word, w4.word] = some (
      if [w1, w2, w3, w4].all (fun x => decide (x.category = w1.category)) then
        { words := b.words.filter (fun x => decide (x.word ∉ texts [w1, w2, w3, w4]))
          selectedAmount := 0
          selectedWords := []
          matchedWords := mapSet b.matchedWords w1.category ([w1, w2, w3, w4].map Word.marked)
          attempts := b.attempts ++ [true] }
      else
        { words := markAll [w1, w2, w3, w4] b.words
          selectedAmount := 0
          selectedWords := []
          matchedWords := b.matchedWords
          attempts := b.attempts ++ [false] }) := by
  have hmem3 : ∀ s ∈ [w1, w2, w3], s ∈ b.words ∧ s.selected = false := by
    intro s hs
    apply hmem
    simp only [List.mem_cons, List.mem_singleton, List.not_mem_nil, or_false] at hs ⊢
    tauto
  have hdist3 : (texts [w1, w2, w3]).Nodup := by
    have : texts [w1, w2, w3, w4] = texts [w1, w2, w3] ++ [w4.word] := rfl
    rw [this] at hdist
    exact (List.nodup_append.1 hdist).1
  have h4 := hmem w4 (by simp)
  have h4new : w4.word ∉ texts [w1, w2, w3] := by
    have : texts [w1, w2, w3, w4] = texts [w1, w2, w3] ++ [w4.word] := rfl
    rw [this] at hdist
    intro hin
    exact (List.nodup_append.1 hdist).2.2 hin (by simp)
  have hsplit : [w1.word, w2.word, w3.word, w4.word] = texts [w1, w2, w3] ++ [w4.word] := rfl
  have hb3 : clickWords b (texts [w1, w2, w3]) =
      some ⟨markAll [w1, w2, w3] b.words, 3, [w1, w2, w3], b.matchedWords, b.attempts⟩ := by
    rw [clickWords_select b [w1, w2, w3] hnd hmem3 hdist3 (by rw [ha]; simp)]
    simp [hS, ha]
  have hloop := clickWordLoop_select
    ⟨markAll [w1, w2, w3] b.words, 3, [w1, w2, w3], b.matchedWords, b.attempts⟩ w4
    (by simpa [texts_markAll] using hnd) (mem_markAll_of_not_mem _ _ _ h4.1 h4new) h4.2
  simp only [markAll_append, List.cons_append, List.nil_append] at hloop
  have hfour : ((3 : Int) + 1 = 4) := by decide
  rw [hsplit, clickWords_append, hb3]
  simp only [Option.some_bind, clickWords, clickWord, hloop, if_pos hfour, Option.bind_some]
  rw [tryMatch_eq _ w1 [w2, w3, w4] rfl]
  have hnd' : (texts (markAll [w1, w2, w3, w4] b.words)).Nodup := by
    simpa [texts_markAll] using hnd
  have hlive : liveWords (markAll [w1, w2, w3, w4] b.words) [w1, w2, w3, w4] =
      [w1, w2, w3, w4].map Word.marked :=
    liveWords_marked _ _ hnd' (fun x hx => marked_mem_markAll _ _ x (hmem x hx).1 hx)
  have htx : texts ([w1, w2, w3, w4].map Word.marked) = texts [w1, w2, w3, w4] := rfl
  simp only [hlive, dropAll_eq_filter _ _ hnd', htx, filter_markAll, Option.bind_some]
  have hall : ([w1, w2, w3, w4].map Word.marked).all (fun x => decide (x.category = w1.category))
      = [w1, w2, w3, w4].all (fun x => decide (x.category = w1.category)) := rfl
  rw [hall]
  split_ifs <;> simp [addAttempt, resetSelection]

theorem texts_nodup_of_mem (ws sel : List Word) (hnd : (texts ws).Nodup)
    (hmem : ∀ s ∈ sel, s ∈ ws) (hdist : sel.Nodup) : (texts sel).Nodup :=
  List.Nodup.map_on
    (fun x hx y hy hxy => eq_of_word_eq ws x y hnd (hmem x hx) (hmem y hy) hxy) hdist

theorem texts_markAll_map (sel ws : List Word) :
    (markAll sel ws).map (fun x => (x.word, x.category)) =
      ws.map (fun x => (x.word, x.category)) := by
  simp only [markAll, List.map_map]
  apply List.map_congr_left
  intro x _
  show ((if x.word ∈ texts sel then x.marked else x).word,
    (if x.word ∈ texts sel then x.marked else x).category) = (x.word, x.category)
  split_ifs <;> rfl

/-! ## Submissions of four words -/

/-- C1: on a board with pairwise different texts, an empty selection and
selected count 0, clicking four different unselected words of the board that
share one category appends one `true` to `attempts`, removes exactly those four
words from `words`, stores them (as they stand on the board, flag set) under
their category in click order, leaves the other groups alone, and ends with an
empty selection and selected count 0. -/
theorem clickWord_four_matching (b : Board) (w1 w2 w3 w4 : Word)
    (hnd : (texts b.words).Nodup) (hS : b.selectedWords = []) (ha : b.selectedAmount = 0)
    (hmem : ∀ s ∈ [w1, w2, w3, w4], s ∈ b.words ∧ s.selected = false)
    (hdist : [w1, w2, w3, w4].Nodup)
    (hcat : ∀ s ∈ [w1, w2, w3, w4], s.category = w1.category) :
    ∃ b1, clickWords b [w1.word, w2.word, w3.word, w4.word] = some b1 ∧
      b1.attempts = b.attempts ++ [true] ∧
      b1.words = b.words.filter (fun x => decide (x ∉ [w1, w2, w3, w4])) ∧
      mapGet b1.matchedWords w1.category =
        some [w1.marked, w2.marked, w3.marked, w4.marked] ∧
      (∀ k, k ≠ w1.category → mapGet b1.matchedWords k = mapGet b.matchedWords k) ∧
      b1.selectedWords = [] ∧ b1.selectedAmount = 0 := by
  have hd := texts_nodup_of_mem b.words _ hnd (fun s hs => (hmem s hs).1) hdist
  have hall : [w1, w2, w3, w4].all (fun x => decide (x.category = w1.category)) = true := by
    rw [List.all_eq_true]
    intro x hx
    simpa using hcat x hx
  refine ⟨_, clickWords_submit b w1 w2 w3 w4 hnd hS ha hmem hd, ?_⟩
  rw [if_pos hall]
  refine ⟨rfl, ?_, ?_, ?_, rfl, rfl⟩
  · exact filter_text_eq_filter_mem _ _ hnd (fun s hs => (hmem s hs).1)
  · exact mapGet_mapSet_same _ _ _
  · intro k hk
    exact mapGet_mapSet_other _ _ _ _ hk

/-- C2: on a board with pairwise different texts, an empty selection and
selected count 0, clicking four different unselected words of the board of
which one has another category than the first appends one `false` to
`attempts`, keeps the texts and categories of `words` in order, leaves
`matchedWords` alone, and ends with an empty selection and selected count 0. -/
theorem clickWord_four_mismatch (b : Board) (w1 w2 w3 w4 : Word)
    (hnd : (texts b.words).Nodup) (hS : b.selectedWords = []) (ha : b.selectedAmount = 0)
    (hmem : ∀ s ∈ [w1, w2, w3, w4], s ∈ b.words ∧ s.selected = false)
    (hdist : [w1, w2, w3, w4].Nodup)
    (hcat : ∃ s ∈ [w1, w2, w3, w4], s.category ≠ w1.category) :
    ∃ b1, clickWords b [w1.word, w2.word, w3.word, w4.word] = some b1 ∧
      b1.attempts = b.attempts ++ [false] ∧
      b1.words.map (fun x => (x.word, x.category)) =
        b.words.map (fun x => (x.word, x.category)) ∧
      b1.words.length = b.words.length ∧
      b1.matchedWords = b.matchedWords ∧
      b1.selectedWords = [] ∧ b1.selectedAmount = 0 := by
  have hd := texts_nodup_of_mem b.words _ hnd (fun s hs => (hmem s hs).1) hdist
  have hall : ¬ ([w1, w2, w3, w4].all (fun x => decide (x.category = w1.category)) = true) := by
    rw [List.all_eq_true]
    intro h
    obtain ⟨s, hs, hne⟩ := hcat
    exact hne (by simpa using h s hs)
  refine ⟨_, clickWords_submit b w1 w2 w3 w4 hnd hS ha hmem hd, ?_⟩
  rw [if_neg hall]
  refine ⟨rfl, texts_markAll_map _ _, ?_, rfl, rfl, rfl⟩
  simp [markAll]

theorem clickWord_four_matching_witness :
    ∃ b1, clickWords mainBoard ["dog", "cat", "bird", "fish"] = some b1 ∧
      b1.attempts = mainBoard.attempts ++ [true] ∧
      b1.words = mainBoard.words.filter (fun x => decide (x ∉
        [freshWord "dog" "animals", freshWord "cat" "animals", freshWord "bird" "animals",
          freshWord "fish" "animals"])) ∧
      mapGet b1.matchedWords "animals" =
        some [(freshWord "dog" "animals").marked, (freshWord "cat" "animals").marked,
          (freshWord "bird" "animals").marked, (freshWord "fish" "animals").marked] ∧
      (∀ k, k ≠ "animals" → mapGet b1.matchedWords k = mapGet mainBoard.matchedWords k) ∧
      b1.selectedWords = [] ∧ b1.selectedAmount = 0 :=
  clickWord_four_matching mainBoard (freshWord "dog" "animals") (freshWord "cat" "animals")
    (freshWord "bird" "animals") (freshWord "fish" "animals")
    (by decide) (by decide) (by decide) (by decide) (by decide) (by decide)

theorem clickWord_four_mismatch_witness :
    ∃ b1, clickWords mainBoard ["dog", "red", "cat", "blue"] = some b1 ∧
      b1.attempts = mainBoard.attempts ++ [false] ∧
      b1.words.map (fun x => (x.word, x.category)) =
        mainBoard.words.map (fun x => (x.word, x.category)) ∧
      b1.words.length = mainBoard.words.length ∧
      b1.matchedWords = mainBoard.matchedWords ∧
      b1.selectedWords = [] ∧ b1.selectedAmount = 0 :=
  clickWord_four_mismatch mainBoard (freshWord "dog" "animals") (freshWord "red" "colors")
    (freshWord "cat" "animals") (freshWord "blue" "colors")
    (by decide) (by decide) (by decide) (by decide) (by decide) (by decide)

theorem all_same_category_perm (l1 l2 : List Word) (x1 x2 : Word) (hp : l1.Perm l2)
    (h1 : x1 ∈ l1)
    (h : l2.all (fun x => decide (x.category = x2.category)) = true) :
    l1.all (fun x => decide (x.category = x1.category)) = true := by
  rw [List.all_eq_true] at h ⊢
  intro x hx
  have e1 : x.category = x2.category := by simpa using h x (hp.mem_iff.1 hx)
  have e2 : x1.category = x2.category := by simpa using h x1 (hp.mem_iff.1 h1)
  simp [e1, e2]

theorem mem_texts_perm (l1 l2 : List Word) (hp : l1.Perm l2) (t : String) :
    t ∈ texts l1 ↔ t ∈ texts l2 :=
  (hp.map Word.word).mem_iff

/-- C7: on a board with pairwise different texts, an empty selection and
selected count 0, submitting four different unselected words of the board in
any two orders appends the same boolean to `attempts` and leaves the same
`words`: either no word is removed, or exactly the four. -/
theorem clickWord_order_independent (b : Board) (w1 w2 w3 w4 v1 v2 v3 v4 : Word)
    (hnd : (texts b.words).Nodup) (hS : b.selectedWords = []) (ha : b.selectedAmount = 0)
    (hmem : ∀ s ∈ [w1, w2, w3, w4], s ∈ b.words ∧ s.selected = false)
    (hdist : [w1, w2, w3, w4].Nodup)
    (hperm : [v1, v2, v3, v4].Perm [w1, w2, w3, w4]) :
    ∃ r b1 b2, clickWords b [w1.word, w2.word, w3.word, w4.word] = some b1 ∧
      clickWords b [v1.word, v2.word, v3.word, v4.word] = some b2 ∧
      b1.attempts = b.attempts ++ [r] ∧ b2.attempts = b.attempts ++ [r] ∧
      b1.words = b2.words ∧
      (r = false → texts b1.words = texts b.words) ∧
      (r = true → b1.words = b.words.filter (fun x => decide (x ∉ [w1, w2, w3, w4]))) := by
  have hmemv : ∀ s ∈ [v1, v2, v3, v4], s ∈ b.words ∧ s.selected = false :=
    fun s hs => hmem s (hperm.mem_iff.1 hs)
  have hdw := texts_nodup_of_mem b.words _ hnd (fun s hs => (hmem s hs).1) hdist
  have hdv := texts_nodup_of_mem b.words _ hnd (fun s hs => (hmemv s hs).1)
    (hperm.nodup_iff.2 hdist)
  have hw := clickWords_submit b w1 w2 w3 w4 hnd hS ha hmem hdw
  have hv := clickWords_submit b v1 v2 v3 v4 hnd hS ha hmemv hdv
  have hmark : markAll [v1, v2, v3, v4] b.words = markAll [w1, w2, w3, w4] b.words := by
    apply List.map_congr_left
    intro x _
    simp only [mem_texts_perm _ _ hperm]
  have hfil : b.words.filter (fun x => decide (x.word ∉ texts [v1, v2, v3, v4])) =
      b.words.filter (fun x => decide (x.word ∉ texts [w1, w2, w3, w4])) := by
    apply List.filter_congr
    intro x _
    simp only [mem_texts_perm _ _ hperm]
  by_cases hall : [w1, w2, w3, w4].all (fun x => decide (x.category = w1.category)) = true
  · have hallv := all_same_category_perm _ _ v1 w1 hperm (by simp) hall
    rw [if_pos hall] at hw
    rw [if_pos hallv] at hv
    refine ⟨true, _, _, hw, hv, rfl, rfl, ?_, ?_, ?_⟩
    · exact hfil.symm
    · intro h; cases h
    · intro _
      exact filter_text_eq_filter_mem _ _ hnd (fun s hs => (hmem s hs).1)
  · have hallv : ¬ ([v1, v2, v3, v4].all (fun x => decide (x.category = v1.category)) = true) :=
      fun h => hall (all_same_category_perm _ _ w1 v1 hperm.symm (by simp) h)
    rw [if_neg hall] at hw
    rw [if_neg hallv] at hv
    refine ⟨false, _, _, hw, hv, rfl, rfl, ?_, ?_, ?_⟩
    · exact hmark.symm
    · intro _
      exact texts_markAll _ _
    · intro h; cases h

theorem clickWord_order_independent_witness :
    ∃ r b1 b2, clickWords mainBoard ["dog", "red", "cat", "blue"] = some b1 ∧
      clickWords mainBoard ["blue", "cat", "dog", "red"] = some b2 ∧
      b1.attempts = mainBoard.attempts ++ [r] ∧ b2.attempts = mainBoard.attempts ++ [r] ∧
      b1.words = b2.words ∧
      (r = false → texts b1.words = texts mainBoard.words) ∧
      (r = true → b1.words = mainBoard.words.filter (fun x => decide (x ∉
        [freshWord "dog" "animals", freshWord "red" "colors", freshWord "cat" "animals",
          freshWord "blue" "colors"]))) :=
  clickWord_order_independent mainBoard (freshWord "dog" "animals") (freshWord "red" "colors")
    (freshWord "cat" "animals") (freshWord "blue" "colors")
    (freshWord "blue" "colors") (freshWord "cat" "animals") (freshWord "dog" "animals")
    (freshWord "red" "colors")
    (by decide) (by decide) (by decide) (by decide) (by decide) (by decide)

/-! ## Selecting and deselecting one word -/

theorem toggle_toggle (t : String) (ws : List Word) : toggle t (toggle t ws) = ws := by
  simp only [toggle, List.map_map]
  conv_rhs => rw [← List.map_id ws]
  apply List.map_congr_left
  intro x _
  by_cases h : x.word = t
  · subst h
    cases x
    simp
  · simp [h]

theorem mem_toggle_of_mem (ws : List Word) (w : Word) (hw : w ∈ ws) :
    ({ w with selected := !w.selected } : Word) ∈ toggle w.word ws := by
  simp only [toggle, List.mem_map]
  exact ⟨w, hw, by simp⟩

theorem dropText_append_single (sel : List Word) (w : Word) (h : w.word ∉ texts sel) :
    dropText w.word (sel ++ [w]) = sel := by
  have hno : ∀ x ∈ sel, ¬ (decide (x.word = w.word) = true) := by
    intro x hx hxw
    exact h (by rw [← of_decide_eq_true hxw]; exact List.mem_map_of_mem _ hx)
  simp only [dropText]
  rw [List.eraseP_append_right _ hno]
  simp

/-- Selecting and deselecting on a board whose selected count is neither 3 nor
4: clicking twice a word of the board that is unselected and not in the
selection gives the board back as it was. -/
theorem clickWord_twice_of_count (b : Board) (w : Word) (hnd : (texts b.words).Nodup)
    (hw : w ∈ b.words) (hsel : w.selected = false) (hns : w.word ∉ texts b.selectedWords)
    (h3 : b.selectedAmount ≠ 3) (h4 : b.selectedAmount ≠ 4) :
    clickWords b [w.word, w.word] = some b := by
  have hne1 : ¬ (b.selectedAmount + 1 = 4) := by omega
  have hne2 : ¬ (b.selectedAmount + 1 - 1 = 4) := by omega
  have hw1 : ({ w with selected := !w.selected } : Word) ∈ toggle w.word b.words :=
    mem_toggle_of_mem b.words w hw
  have hl2 := clickWordLoop_present
    { b with
      words := toggle w.word b.words
      selectedAmount := b.selectedAmount + 1
      selectedWords := b.selectedWords ++ [w] }
    { w with selected := !w.selected } (by simpa [texts_toggle] using hnd) hw1
  simp only [hsel, Bool.not_false, if_true, toggle_toggle,
    dropText_append_single b.selectedWords w hns] at hl2
  simp only [clickWords, clickWord, clickWordLoop_present b w hnd hw, hsel, Option.some_bind,
    Bool.false_eq_true, if_false, hne1, hl2, hne2]
  cases b
  simp

/-! ## Reachable boards -/

theorem tryMatch_reset (b b1 : Board) (h : tryMatch b = some b1) :
    b1.selectedAmount = 0 ∧ b1.selectedWords = [] := by
  cases hs : b.selectedWords with
  | nil => simp [tryMatch, hs] at h
  | cons first rest =>
    rw [tryMatch_eq b first rest hs] at h
    injection h with h
    subst h
    split_ifs <;> simp [addAttempt, resetSelection]

theorem clickWord_amount_ne_four (b b1 : Board) (t : String) (h : clickWord b t = some b1) :
    b1.selectedAmount ≠ 4 := by
  simp only [clickWord] at h
  cases hl : clickWordLoop t b.words 0 b with
  | none => simp [hl] at h
  | some b2 =>
    simp only [hl, Option.some_bind] at h
    split_ifs at h with h4
    · rw [(tryMatch_reset b2 b1 h).1]; decide
    · injection h with h
      subst h
      exact h4

theorem foldl_addWord_frame (line : List String) (c : String) (b : Board) :
    (line.foldl (fun acc word => addWord acc word c) b).selectedAmount = b.selectedAmount ∧
    (line.foldl (fun acc word => addWord acc word c) b).selectedWords = b.selectedWords ∧
    (line.foldl (fun acc word => addWord acc word c) b).matchedWords = b.matchedWords ∧
    (line.foldl (fun acc word => addWord acc word c) b).attempts = b.attempts := by
  induction line generalizing b with
  | nil => simp
  | cons t rest ih =>
    simp only [List.foldl_cons]
    have := ih (addWord b t c)
    simpa [addWord] using this

theorem addLine_frame (b : Board) (line : List String) (c : String) :
    (addLine b line c).1.selectedAmount = b.selectedAmount ∧
    (addLine b line c).1.selectedWords = b.selectedWords ∧
    (addLine b line c).1.matchedWords = b.matchedWords ∧
    (addLine b line c).1.attempts = b.attempts := by
  simp only [addLine]
  split_ifs
  · simp
  · exact foldl_addWord_frame line c b

theorem assembleBoard_frame (catalog : List (String × List String)) :
    (assembleBoard catalog).selectedAmount = 0 ∧ (assembleBoard catalog).selectedWords = [] ∧
    (assembleBoard catalog).matchedWords = [] ∧ (assembleBoard catalog).attempts = [] := by
  have key : ∀ (b : Board),
      (catalog.foldl (fun b entry => (addLine b entry.2 entry.1).1) b).selectedAmount =
        b.selectedAmount ∧
      (catalog.foldl (fun b entry => (addLine b entry.2 entry.1).1) b).selectedWords =
        b.selectedWords ∧
      (catalog.foldl (fun b entry => (addLine b entry.2 entry.1).1) b).matchedWords =
        b.matchedWords ∧
      (catalog.foldl (fun b entry => (addLine b entry.2 entry.1).1) b).attempts =
        b.attempts := by
    induction catalog with
    | nil => intro b; simp
    | cons e rest ih =>
      intro b
      simp only [List.foldl_cons]
      have h1 := ih (addLine b e.2 e.1).1
      have h2 := addLine_frame b e.2 e.1
      rw [h1.1, h1.2.1, h1.2.2.1, h1.2.2.2]
      exact h2
  exact key ⟨[], 0, [], [], []⟩

theorem reachable_amount_ne_four (catalog : List (String × List String)) (b : Board)
    (h : Reachable catalog b) : b.selectedAmount ≠ 4 := by
  cases h with
  | start => rw [(assembleBoard_frame catalog).1]; decide
  | click b0 _ t _ hc => exact clickWord_amount_ne_four b0 b t hc

theorem produced_amount_ne_four (b : Board) (hp : Produced b) : b.selectedAmount ≠ 4 := by
  rcases hp with ⟨catalog, rfl⟩ | ⟨b0, t, hc⟩
  · rw [(assembleBoard_frame catalog).1]; decide
  · exact clickWord_amount_ne_four b0 b t hc

theorem produced_of_reachable (catalog : List (String × List String)) (b : Board)
    (hr : Reachable catalog b) : Produced b := by
  cases hr with
  | start => exact Or.inl ⟨catalog, rfl⟩
  | click b0 _ t _ hc => exact Or.inr ⟨b0, t, hc⟩

/-- C8: on every board the code produces (returned by `assembleBoard` or by
`clickWord`) that has pairwise different texts, for every word of the board that
is unselected and not in the selection, when the selected count is not 3,
clicking the word twice gives the board back as it was: same selection in the
same order, same count, flag cleared, `words`, `matchedWords` and `attempts`
unchanged. -/
theorem clickWord_twice (b : Board) (w : Word) (hp : Produced b)
    (hnd : (texts b.words).Nodup) (hw : w ∈ b.words) (hsel : w.selected = false)
    (hns : w.word ∉ texts b.selectedWords) (h3 : b.selectedAmount ≠ 3) :
    clickWords b [w.word, w.word] = some b ∧
    (∃ b1, clickWord b w.word = some b1 ∧ b1.selectedWords = b.selectedWords ++ [w] ∧
      b1.selectedAmount = b.selectedAmount + 1 ∧ b1.attempts = b.attempts ∧
      clickWord b1 w.word = some b) := by
  have h4 := produced_amount_ne_four b hp
  have htwice := clickWord_twice_of_count b w hnd hw hsel hns h3 h4
  refine ⟨htwice, ?_⟩
  have hne1 : ¬ (b.selectedAmount + 1 = 4) := by omega
  have h1 : clickWord b w.word = some
      { b with
        words := toggle w.word b.words
        selectedAmount := b.selectedAmount + 1
        selectedWords := b.selectedWords ++ [w] } := by
    simp [clickWord, clickWordLoop_present b w hnd hw, hsel, hne1]
  refine ⟨_, h1, rfl, rfl, rfl, ?_⟩
  simpa [clickWords, h1] using htwice

theorem clickWord_twice_witness :
    clickWords dogSelectedBoard ["cat", "cat"] = some dogSelectedBoard ∧
    (∃ b1, clickWord dogSelectedBoard "cat" = some b1 ∧
      b1.selectedWords = dogSelectedBoard.selectedWords ++ [freshWord "cat" "animals"] ∧
      b1.selectedAmount = dogSelectedBoard.selectedAmount + 1 ∧
      b1.attempts = dogSelectedBoard.attempts ∧
      clickWord b1 "cat" = some dogSelectedBoard) :=
  clickWord_twice dogSelectedBoard (freshWord "cat" "animals")
    (Or.inr ⟨mainBoard, "dog", by decide⟩)
    (by decide) (by decide) (by decide) (by decide) (by decide)

/-- C9: in every board reachable from an assembled board, `clickWord` with a text
that no word of `words` carries returns the board unchanged (words and flags,
selection, selected count, matched groups, attempts), and the selected count is
not 4, so `tryMatch` is not called. -/
theorem clickWord_unknown (catalog : List (String × List String)) (b : Board) (t : String)
    (hr : Reachable catalog b) (ht : ∀ w ∈ b.words, w.word ≠ t) :
    clickWord b t = some b ∧ clickWordLoop t b.words 0 b = some b ∧ b.selectedAmount ≠ 4 := by
  have h4 := reachable_amount_ne_four catalog b hr
  have hl := clickWordLoop_absent t b.words 0 b ht
  refine ⟨?_, hl, h4⟩
  simp [clickWord, hl, h4]

theorem clickWord_unknown_witness :
    clickWord mainBoard "zebra" = some mainBoard ∧
    clickWordLoop "zebra" mainBoard.words 0 mainBoard = some mainBoard ∧
    mainBoard.selectedAmount ≠ 4 :=
  clickWord_unknown mainCatalog mainBoard "zebra" Reachable.start (by decide)

/-! ## Flags left behind by a failed attempt -/

theorem categoryBound_of_forall_mem (ws : List Word)
    (h : ∀ x ∈ ws, ws.countP (fun y => decide (y.category = x.category)) ≤ 4) :
    CategoryBound ws := by
  intro c
  by_cases hc : ∃ x ∈ ws, x.category = c
  · obtain ⟨x, hx, rfl⟩ := hc
    exact h x hx
  · have : ws.countP (fun x => decide (x.category = c)) = 0 := by
      rw [List.countP_eq_zero]
      intro a ha hac
      exact hc ⟨a, ha, of_decide_eq_true hac⟩
    omega

theorem categoryBound_toggle (t : String) (ws : List Word) (h : CategoryBound ws) :
    CategoryBound (toggle t ws) := by
  intro c
  have : (toggle t ws).countP (fun x => decide (x.category = c)) =
      ws.countP (fun x => decide (x.category = c)) := by
    simp only [toggle, List.countP_map]
    apply List.countP_congr
    intro x _
    by_cases hx : x.word = t <;> simp [hx]
  rw [this]
  exact h c

theorem categoryBound_filter (p : Word → Bool) (ws : List Word) (h : CategoryBound ws) :
    CategoryBound (ws.filter p) :=
  fun c => Nat.le_trans (List.Sublist.countP_le _ (List.filter_sublist ws)) (h c)

theorem selectedCount_toggle (ws : List Word) (w : Word) (hnd : (texts ws).Nodup)
    (hw : w ∈ ws) :
    (selectedCount (toggle w.word ws) : Int) =
      if w.selected then (selectedCount ws : Int) - 1 else (selectedCount ws : Int) + 1 := by
  obtain ⟨pre, post, rfl, hpre, hpost⟩ := split_of_mem ws w hnd hw
  rw [toggle_split pre post w hpre hpost]
  simp only [selectedCount, List.countP_append, List.countP_cons]
  cases w.selected <;> simp <;> omega

theorem countP_split (p q : Word → Bool) (ws : List Word) :
    ws.countP p = (ws.filter q).countP p + (ws.filter (fun x => !q x)).countP p := by
  induction ws with
  | nil => rfl
  | cons w rest ih =>
    by_cases hq : q w = true
    · simp only [List.filter_cons, hq, if_true, Bool.not_true, List.countP_cons]
      simp only [Bool.false_eq_true, if_false]
      omega
    · simp only [Bool.not_eq_true] at hq
      simp only [List.filter_cons, hq, Bool.false_eq_true, if_false, Bool.not_false, if_true,
        List.countP_cons]
      omega

theorem liveWords_mem (ws sel : List Word) (x : Word) (h : x ∈ liveWords ws sel) : x ∈ ws := by
  simp only [liveWords, List.mem_filterMap] at h
  obtain ⟨s, _, hf⟩ := h
  exact List.mem_of_find?_eq_some hf

/-- Removing a group of words that share one category clears at most 4 flags. -/
theorem selectedCount_remove (ws live : List Word) (c : String) (hnd : (texts ws).Nodup)
    (hcb : CategoryBound ws) (hmem : ∀ x ∈ live, x ∈ ws)
    (hcat : ∀ x ∈ live, x.category = c) :
    selectedCount ws ≤
      selectedCount (ws.filter (fun x => decide (x.word ∉ texts live))) + 4 := by
  have h1 := countP_split (fun x => x.selected) (fun x => decide (x.word ∉ texts live)) ws
  have h2 : (ws.filter (fun x => !decide (x.word ∉ texts live))).countP (fun x => x.selected) ≤
      ws.countP (fun x => decide (x.category = c)) := by
    refine Nat.le_trans (List.countP_le_length _) ?_
    rw [← List.countP_eq_length_filter]
    apply List.countP_mono_left
    intro x hx hp
    have hin : x.word ∈ texts live := by simpa using hp
    obtain ⟨y, hy, hyx⟩ := List.mem_map.1 hin
    have := eq_of_word_eq ws y x hnd (hmem y hy) hx hyx
    subst this
    simpa using hcat y hy
  have h3 := hcb c
  simp only [selectedCount]
  omega

theorem failures_append (l : List Bool) (a : Bool) :
    failures (l ++ [a]) = failures l + if a then 0 else 1 := by
  cases a <;> simp [failures, List.countP_append, List.countP_cons]

/-- Match evaluation keeps the books. -/
theorem accounted_tryMatch (b b1 : Board) (hnd : (texts b.words).Nodup)
    (hcb : CategoryBound b.words) (ha : b.selectedAmount = 4)
    (hacc : b.selectedAmount + 4 * (failures b.attempts : Int) ≤ (selectedCount b.words : Int))
    (h : tryMatch b = some b1) : Accounted b1 := by
  cases hs : b.selectedWords with
  | nil => simp [tryMatch, hs] at h
  | cons first rest =>
    rw [tryMatch_eq b first rest hs] at h
    injection h with h
    subst h
    split_ifs with hall
    · have hmem : ∀ x ∈ liveWords b.words b.selectedWords, x ∈ b.words :=
        fun x hx => liveWords_mem _ _ x hx
      have hcat : ∀ x ∈ liveWords b.words b.selectedWords, x.category = first.category := by
        intro x hx
        simpa using (List.all_eq_true.1 hall) x hx
      have hrem := selectedCount_remove b.words _ first.category hnd hcb hmem hcat
      refine ⟨?_, ?_, ?_, fun _ => rfl⟩
      · simp only [addAttempt, resetSelection, dropAll_eq_filter _ _ hnd]
        exact texts_filter_nodup _ _ hnd
      · simp only [addAttempt, resetSelection, dropAll_eq_filter _ _ hnd]
        exact categoryBound_filter _ _ hcb
      · simp only [addAttempt, resetSelection, dropAll_eq_filter _ _ hnd, failures_append]
        simp only [if_true]
        omega
    · refine ⟨hnd, hcb, ?_, fun _ => rfl⟩
      simp only [addAttempt, resetSelection, failures_append]
      simp only [Bool.false_eq_true, if_false]
      omega

/-- The loop of `clickWord` never panics on a board that keeps the books, and
keeps them. -/
theorem accounted_clickWordLoop (b : Board) (t : String) (hb : Accounted b) :
    ∃ b2, clickWordLoop t b.words 0 b = some b2 ∧ Accounted b2 := by
  obtain ⟨hnd, hcb, hacc, hempty⟩ := hb
  by_cases hpres : ∃ w ∈ b.words, w.word = t
  · obtain ⟨w, hw, rfl⟩ := hpres
    refine ⟨_, clickWordLoop_present b w hnd hw, ?_⟩
    have hnd2 : (texts (toggle w.word b.words)).Nodup := by simpa [texts_toggle] using hnd
    have hcb2 := categoryBound_toggle w.word b.words hcb
    have hcount := selectedCount_toggle b.words w hnd hw
    have hne : toggle w.word b.words ≠ [] := by
      intro he
      have := mem_toggle_of_mem b.words w hw
      rw [he] at this
      cases this
    refine ⟨hnd2, hcb2, ?_, fun he => absurd he hne⟩
    show (if w.selected then b.selectedAmount - 1 else b.selectedAmount + 1) +
        4 * (failures b.attempts : Int) ≤ (selectedCount (toggle w.word b.words) : Int)
    rw [hcount]
    cases w.selected
    · simp only [Bool.false_eq_true, if_false]
      omega
    · simp only [if_true]
      omega
  · have habs : ∀ w ∈ b.words, w.word ≠ t := fun w hw hwt => hpres ⟨w, hw, hwt⟩
    exact ⟨b, clickWordLoop_absent t b.words 0 b habs, hnd, hcb, hacc, hempty⟩

/-- Every `clickWord` keeps the books. -/
theorem accounted_clickWord (b b1 : Board) (t : String) (hb : Accounted b)
    (h : clickWord b t = some b1) : Accounted b1 := by
  obtain ⟨b2, hl, hb2⟩ := accounted_clickWordLoop b t hb
  simp only [clickWord, hl, Option.some_bind] at h
  split_ifs at h with h4
  · exact accounted_tryMatch b2 b1 hb2.1 hb2.2.1 h4 hb2.2.2.1 h
  · injection h with h
    subst h
    exact hb2

theorem accounted_clickWords (ts : List String) (b b1 : Board) (hb : Accounted b)
    (h : clickWords b ts = some b1) : Accounted b1 := by
  induction ts generalizing b with
  | nil =>
    simp only [clickWords] at h
    injection h with h
    subst h
    exact hb
  | cons t rest ih =>
    simp only [clickWords] at h
    cases hc : clickWord b t with
    | none => simp [hc] at h
    | some b2 =>
      simp only [hc, Option.some_bind] at h
      exact ih b2 (accounted_clickWord b b2 t hb hc) h

/-- On a board that keeps the books, the game is won only without a failed
attempt. -/
theorem accounted_won (b : Board) (hb : Accounted b) (hw : b.words = []) :
    failures b.attempts = 0 := by
  obtain ⟨_, _, hacc, hempty⟩ := hb
  have h0 := hempty hw
  have hz : selectedCount b.words = 0 := by simp [selectedCount, hw]
  rw [h0, hz] at hacc
  omega

theorem accounted_clickWord_failures (b b1 : Board) (t : String) (hb : Accounted b)
    (h : clickWord b t = some b1) : failures b.attempts ≤ failures b1.attempts := by
  have hloop : ∀ b2, clickWordLoop t b.words 0 b = some b2 → b2.attempts = b.attempts := by
    intro b2 hl
    by_cases hpres : ∃ w ∈ b.words, w.word = t
    · obtain ⟨w, hw, rfl⟩ := hpres
      rw [clickWordLoop_present b w hb.1 hw] at hl
      injection hl with hl
      subst hl
      rfl
    · have habs : ∀ w ∈ b.words, w.word ≠ t := fun w hw hwt => hpres ⟨w, hw, hwt⟩
      rw [clickWordLoop_absent t b.words 0 b habs] at hl
      injection hl with hl
      subst hl
      rfl
  simp only [clickWord] at h
  cases hl : clickWordLoop t b.words 0 b with
  | none => simp [hl] at h
  | some b2 =>
    have hat := hloop b2 hl
    simp only [hl, Option.some_bind] at h
    split_ifs at h
    · cases hs : b2.selectedWords with
      | nil => simp [tryMatch, hs] at h
      | cons first rest =>
        rw [tryMatch_eq b2 first rest hs] at h
        injection h with h
        subst h
        split_ifs <;> simp [addAttempt, resetSelection, failures_append, hat]
    · injection h with h
      subst h
      rw [hat]

theorem accounted_clickWords_failures (ts : List String) (b b1 : Board) (hb : Accounted b)
    (h : clickWords b ts = some b1) : failures b.attempts ≤ failures b1.attempts := by
  induction ts generalizing b with
  | nil =>
    simp only [clickWords] at h
    injection h with h
    subst h
    exact Nat.le_refl _
  | cons t rest ih =>
    simp only [clickWords] at h
    cases hc : clickWord b t with
    | none => simp [hc] at h
    | some b2 =>
      simp only [hc, Option.some_bind] at h
      exact Nat.le_trans (accounted_clickWord_failures b b2 t hb hc)
        (ih b2 (accounted_clickWord b b2 t hb hc) h)

theorem mainBoard_accounted : Accounted mainBoard :=
  ⟨by decide, categoryBound_of_forall_mem _ (by decide), by decide, fun _ => by decide⟩

/-! ## What the code does after a failed attempt, and on a short category -/

/-- C3, at the failing input: after the failed submission dog, red, cat, blue on
the board of `main`, the selection is empty and the count is 0, but the four
submitted words are still marked selected in `words`. -/
theorem failed_attempt_keeps_flags :
    (clickWords mainBoard ["dog", "red", "cat", "blue"]).map
      (fun b => (b.attempts, b.selectedAmount, b.selectedWords,
        texts (b.words.filter (fun x => x.selected)))) =
      some ([false], 0, [], ["dog", "cat", "red", "blue"]) := by
  decide

/-- C4, at the failing input: after the failed submission dog, red, cat, blue on
the board of `main`, no sequence of further `clickWord` calls empties `words`. -/
theorem failed_attempt_never_won (ts : List String) :
    (clickWords mainBoard (["dog", "red", "cat", "blue"] ++ ts)).map
      (fun b => decide (b.words = [])) ≠ some true := by
  intro h
  rw [clickWords_append] at h
  cases hpre : clickWords mainBoard ["dog", "red", "cat", "blue"] with
  | none => simp [hpre] at h
  | some fb =>
    have hfb := accounted_clickWords _ mainBoard fb mainBoard_accounted hpre
    have hone : (clickWords mainBoard ["dog", "red", "cat", "blue"]).map
        (fun b => failures b.attempts) = some 1 := by decide
    rw [hpre] at hone
    simp only [Option.map_some', Option.some.injEq] at hone
    simp only [hpre, Option.some_bind] at h
    cases hc : clickWords fb ts with
    | none => simp [hc] at h
    | some b =>
      have hb := accounted_clickWords ts fb b hfb hc
      have hmono := accounted_clickWords_failures ts fb b hfb hc
      have hw : b.words = [] := by simpa [hc] using h
      have := accounted_won b hb hw
      omega

/-- C5, at the failing input: after a failed submission, deselecting and
reselecting one of its words and selecting three fresh ones leaves four words
in the selection with the count at 3 and no evaluation; the next click
evaluates a selection of five words. -/
theorem selection_outgrows_counter :
    (clickWords mainBoard
        ["dog", "red", "cat", "blue", "dog", "dog", "bird", "fish", "green"]).map
      (fun b => (b.attempts, b.selectedAmount, texts b.selectedWords)) =
      some ([false], 3, ["dog", "bird", "fish", "green"]) ∧
    ((clickWords mainBoard
        ["dog", "red", "cat", "blue", "dog", "dog", "bird", "fish", "green"]).bind
      (fun b => clickWordLoop "yellow" b.words 0 b)).map
      (fun b => (b.selectedAmount, texts b.selectedWords)) =
      some (4, ["dog", "bird", "fish", "green", "yellow"]) := by
  decide

/-- C10, at the failing input: for a catalog whose category `animals` has 3
words, `addLine` returns its error, and `assembleBoard` drops it and returns a
playable board holding the other category only. -/
theorem assembleBoard_short_category :
    (addLine ⟨[], 0, [], [], []⟩ ["dog", "cat", "bird"] "animals").2 =
      some "a line must have 4 words" ∧
    assembleBoard shortCatalog =
      ⟨[freshWord "red" "colors", freshWord "blue" "colors", freshWord "green" "colors",
        freshWord "yellow" "colors"], 0, [], [], []⟩ := by
  decide

/-! ## Assembling the board of a well-formed catalog -/

theorem foldl_addWord_words (line : List String) (c : String) (b : Board) :
    (line.foldl (fun acc word => addWord acc word c) b).words =
      b.words ++ line.map (fun t => freshWord t c) := by
  induction line generalizing b with
  | nil => simp
  | cons t rest ih =>
    rw [List.foldl_cons, ih (addWord b t c)]
    simp only [addWord, List.map_cons, freshWord, List.append_assoc, List.singleton_append]

theorem assembleBoard_words_from (catalog : List (String × List String))
    (hlen : ∀ e ∈ catalog, e.2.length = 4) (b : Board) :
    (catalog.foldl (fun b entry => (addLine b entry.2 entry.1).1) b).words =
      b.words ++ catalog.flatMap (fun e => e.2.map (fun t => freshWord t e.1)) := by
  induction catalog generalizing b with
  | nil => simp
  | cons e rest ih =>
    have he : e.2.length = 4 := hlen e (List.mem_cons_self _ _)
    have hrest : ∀ x ∈ rest, x.2.length = 4 := fun x hx => hlen x (List.mem_cons_of_mem _ hx)
    simp only [List.foldl_cons, List.flatMap_cons]
    rw [ih hrest]
    simp [addLine, he, foldl_addWord_words]

/-- The words of the assembled board of a catalog whose lines all have 4 words. -/
theorem assembleBoard_words (catalog : List (String × List String))
    (hlen : ∀ e ∈ catalog, e.2.length = 4) :
    (assembleBoard catalog).words =
      catalog.flatMap (fun e => e.2.map (fun t => freshWord t e.1)) := by
  simp [assembleBoard, assembleBoard_words_from catalog hlen]

theorem assembleBoard_ident (catalog : List (String × List String))
    (hlen : ∀ e ∈ catalog, e.2.length = 4) :
    (assembleBoard catalog).words.map ident = catalogWords catalog := by
  rw [assembleBoard_words catalog hlen, catalogWords]
  induction catalog with
  | nil => rfl
  | cons e rest ih =>
    have hrest : ∀ x ∈ rest, x.2.length = 4 := fun x hx => hlen x (List.mem_cons_of_mem _ hx)
    simp only [List.flatMap_cons, List.map_append, ih hrest, List.map_map]
    rfl

theorem catalogWords_countP_absent (catalog : List (String × List String)) (c : String)
    (hc : c ∉ catalog.map Prod.fst) :
    (catalogWords catalog).countP (fun p => decide (p.2 = c)) = 0 := by
  rw [List.countP_eq_zero]
  intro p hp hpc
  simp only [catalogWords, List.mem_flatMap, List.mem_map] at hp
  obtain ⟨e, he, t, _, rfl⟩ := hp
  exact hc (List.mem_map.2 ⟨e, he, by simpa using hpc⟩)

/-- A well-formed catalog has at most 4 words in any category. -/
theorem catalogWords_countP_le (catalog : List (String × List String))
    (hlen : ∀ e ∈ catalog, e.2.length = 4) (hkeys : (catalog.map Prod.fst).Nodup)
    (c : String) : (catalogWords catalog).countP (fun p => decide (p.2 = c)) ≤ 4 := by
  induction catalog with
  | nil => simp [catalogWords]
  | cons e rest ih =>
    have he : e.2.length = 4 := hlen e (List.mem_cons_self _ _)
    have hrest : ∀ x ∈ rest, x.2.length = 4 := fun x hx => hlen x (List.mem_cons_of_mem _ hx)
    have hk := List.nodup_cons.1 hkeys
    have hsplit : catalogWords (e :: rest) =
        e.2.map (fun t => (t, e.1)) ++ catalogWords rest := by
      simp [catalogWords]
    rw [hsplit, List.countP_append]
    have hfirst : (e.2.map (fun t => (t, e.1))).countP (fun p => decide (p.2 = c)) ≤ 4 := by
      refine Nat.le_trans (List.countP_le_length _) ?_
      simp [he]
    by_cases hec : e.1 = c
    · have := catalogWords_countP_absent rest c (by rw [← hec]; exact hk.1)
      omega
    · have : (e.2.map (fun t => (t, e.1))).countP (fun p => decide (p.2 = c)) = 0 := by
        rw [List.countP_eq_zero]
        intro p hp hpc
        obtain ⟨t, _, rfl⟩ := List.mem_map.1 hp
        exact hec (by simpa using hpc)
      have := ih hrest hk.2
      omega

/-! ## The invariant of the game -/

theorem texts_eq_map_ident (ws : List Word) : texts ws = (ws.map ident).map Prod.fst := by
  simp [texts, ident, List.map_map, Function.comp_def]

theorem ident_toggle (t : String) (ws : List Word) :
    (toggle t ws).map ident = ws.map ident := by
  simp only [toggle, List.map_map]
  apply List.map_congr_left
  intro x _
  by_cases h : x.word = t <;> simp [h, ident]

theorem gameInv_all_texts_nodup (catalog : List (String × List String)) (b : Board)
    (hwf : WellFormed catalog) (hb : GameInv catalog b) :
    (texts (b.words ++ matchedList b.matchedWords)).Nodup := by
  rw [texts_eq_map_ident]
  exact ((hb.conserved.map Prod.fst).nodup_iff).2 hwf.2.2

theorem gameInv_texts_nodup (catalog : List (String × List String)) (b : Board)
    (hwf : WellFormed catalog) (hb : GameInv catalog b) : (texts b.words).Nodup := by
  have h := gameInv_all_texts_nodup catalog b hwf hb
  simp only [texts, List.map_append] at h
  exact (List.nodup_append.1 h).1

theorem gameInv_category_bound (catalog : List (String × List String)) (b : Board)
    (hwf : WellFormed catalog) (hb : GameInv catalog b) (c : String) :
    b.words.countP (fun x => decide (x.category = c)) +
      (matchedList b.matchedWords).countP (fun x => decide (x.category = c)) ≤ 4 := by
  have h1 := hb.conserved.countP_eq (fun p => decide (p.2 = c))
  have h2 := catalogWords_countP_le catalog hwf.1 hwf.2.1 c
  rw [List.countP_map, List.countP_append] at h1
  have e : ∀ l : List Word, l.countP ((fun p : String × String => decide (p.2 = c)) ∘ ident) =
      l.countP (fun x => decide (x.category = c)) := fun l => rfl
  rw [e, e] at h1
  omega

/-- The assembled board of a well-formed catalog satisfies the invariant. -/
theorem gameInv_start (catalog : List (String × List String)) (hwf : WellFormed catalog) :
    GameInv catalog (assembleBoard catalog) := by
  obtain ⟨h1, h2, h3, h4⟩ := assembleBoard_frame catalog
  refine ⟨?_, ?_, ?_, ?_, ?_, ?_, ?_⟩
  · rw [h3]
    simp only [matchedList, List.flatMap_nil, List.append_nil]
    rw [assembleBoard_ident catalog hwf.1]
  · rw [h3]; intro e he; cases he
  · rw [h3]; exact List.nodup_nil
  · rw [h2]; exact List.nodup_nil
  · rw [h2]; intro s hs; cases hs
  · rw [h1, h2]; simp
  · rw [h3, h4]; rfl

theorem mem_toggle_of_ne (t : String) (ws : List Word) (x : Word) (hx : x ∈ ws)
    (h : x.word ≠ t) : x ∈ toggle t ws := by
  simp only [toggle, List.mem_map]
  exact ⟨x, hx, by rw [if_neg h]⟩

theorem dropText_sublist (t : String) (sel : List Word) : (dropText t sel).Sublist sel :=
  List.eraseP_sublist sel

theorem dropText_length (t : String) (sel : List Word) :
    sel.length ≤ (dropText t sel).length + 1 := by
  induction sel with
  | nil => simp [dropText]
  | cons y rest ih =>
    by_cases h : y.word = t
    · simp [dropText, h]
    · simp only [dropText] at ih ⊢
      simp [h]
      omega

theorem word_ne_of_mem_dropText (t : String) (sel : List Word) (hnd : (texts sel).Nodup)
    (s : Word) (hs : s ∈ dropText t sel) : s.word ≠ t := by
  induction sel with
  | nil => simp [dropText] at hs
  | cons y rest ih =>
    have hd := List.nodup_cons.1 hnd
    by_cases h : y.word = t
    · have e : dropText t (y :: rest) = rest := by simp [dropText, h]
      rw [e] at hs
      intro hst
      exact hd.1 (by
        show y.word ∈ texts rest
        rw [h, ← hst]; exact List.mem_map_of_mem _ hs)
    · have e : dropText t (y :: rest) = y :: dropText t rest := by simp [dropText, h]
      rw [e] at hs
      rcases List.mem_cons.1 hs with rfl | hs'
      · exact h
      · exact ih hd.2 hs'

/-- The loop of `clickWord` never panics under the invariant, and keeps it. -/
theorem gameInv_clickWordLoop (catalog : List (String × List String)) (b : Board) (t : String)
    (hwf : WellFormed catalog) (hb : GameInv catalog b) :
    ∃ b2, clickWordLoop t b.words 0 b = some b2 ∧ GameInv catalog b2 := by
  have hnd := gameInv_texts_nodup catalog b hwf hb
  by_cases hpres : ∃ w ∈ b.words, w.word = t
  · obtain ⟨w, hw, rfl⟩ := hpres
    refine ⟨_, clickWordLoop_present b w hnd hw, ?_⟩
    cases hsel : w.selected with
    | false =>
      simp only [Bool.false_eq_true, if_false]
      have hnew : w.word ∉ texts b.selectedWords := by
        intro hin
        obtain ⟨s, hs, hsw⟩ := List.mem_map.1 hin
        obtain ⟨x, hx, hxw, _, hxs⟩ := hb.selLive s hs
        have := eq_of_word_eq b.words x w hnd hx hw (hxw.trans hsw)
        rw [this, hsel] at hxs
        cases hxs
      refine ⟨?_, hb.groups, hb.keys, ?_, ?_, ?_, hb.successes⟩
      · show ((toggle w.word b.words ++ matchedList b.matchedWords).map ident).Perm _
        rw [List.map_append, ident_toggle, ← List.map_append]
        exact hb.conserved
      · show (texts (b.selectedWords ++ [w])).Nodup
        simp only [texts, List.map_append, List.map_cons, List.map_nil]
        refine List.nodup_append.2 ⟨hb.selNodup, List.nodup_singleton _, ?_⟩
        intro a ha1 ha2
        rw [List.mem_singleton.1 ha2] at ha1
        exact hnew ha1
      · intro s hs
        rcases List.mem_append.1 hs with hs' | hs'
        · obtain ⟨x, hx, hxw, hxc, hxs⟩ := hb.selLive s hs'
          refine ⟨x, mem_toggle_of_ne _ _ x hx ?_, hxw, hxc, hxs⟩
          intro hxe
          exact hnew (by rw [← hxe, hxw]; exact List.mem_map_of_mem _ hs')
        · rw [List.mem_singleton.1 hs']
          exact ⟨_, mem_toggle_of_mem b.words w hw, rfl, rfl, by simp [hsel]⟩
      · show b.selectedAmount + 1 ≤ ((b.selectedWords ++ [w]).length : Int)
        have := hb.amount
        simp only [List.length_append, List.length_singleton, Nat.cast_add, Nat.cast_one]
        omega
    | true =>
      simp only [if_true]
      refine ⟨?_, hb.groups, hb.keys, ?_, ?_, ?_, hb.successes⟩
      · show ((toggle w.word b.words ++ matchedList b.matchedWords).map ident).Perm _
        rw [List.map_append, ident_toggle, ← List.map_append]
        exact hb.conserved
      · exact List.Nodup.sublist ((dropText_sublist _ _).map _) hb.selNodup
      · intro s hs
        have hne := word_ne_of_mem_dropText w.word b.selectedWords hb.selNodup s hs
        obtain ⟨x, hx, hxw, hxc, hxs⟩ := hb.selLive s ((dropText_sublist _ _).subset hs)
        exact ⟨x, mem_toggle_of_ne _ _ x hx (by rw [hxw]; exact hne), hxw, hxc, hxs⟩
      · show b.selectedAmount - 1 ≤ ((dropText w.word b.selectedWords).length : Int)
        have h1 := hb.amount
        have h2 := dropText_length w.word b.selectedWords
        omega
  · have habs : ∀ w ∈ b.words, w.word ≠ t := fun w hw hwt => hpres ⟨w, hw, hwt⟩
    exact ⟨b, clickWordLoop_absent t b.words 0 b habs, hb⟩

theorem mapSet_fresh (m : List (String × List Word)) (k : String) (v : List Word)
    (hk : k ∉ m.map Prod.fst) : mapSet m k v = m ++ [(k, v)] := by
  induction m with
  | nil => rfl
  | cons e rest ih =>
    have h1 : e.1 ≠ k := fun h => hk (by simp [h])
    have h2 : k ∉ rest.map Prod.fst := fun h => hk (by simp [h])
    simp [mapSet, h1, ih h2]

/-- Under the invariant every selected word is found on the board, so the
collected words answer the selection one for one. -/
theorem liveWords_of_live (ws sel : List Word) (hnd : (texts ws).Nodup)
    (h : ∀ s ∈ sel,
      ∃ x ∈ ws, x.word = s.word ∧ x.category = s.category ∧ x.selected = true) :
    texts (liveWords ws sel) = texts sel ∧ (liveWords ws sel).length = sel.length := by
  induction sel with
  | nil => simp [liveWords, texts]
  | cons s rest ih =>
    obtain ⟨x, hx, hxw, _, _⟩ := h s (List.mem_cons_self _ _)
    have hf := find_of_mem ws x hnd hx
    rw [hxw] at hf
    have hrest := ih (fun y hy => h y (List.mem_cons_of_mem _ hy))
    have e : liveWords ws (s :: rest) = x :: liveWords ws rest := by
      simp [liveWords, List.filterMap_cons, hf]
    rw [e]
    constructor
    · show x.word :: texts (liveWords ws rest) = s.word :: texts rest
      rw [hrest.1, hxw]
    · simp [hrest.2]

/-- The words removed by a successful evaluation are the collected ones. -/
theorem removed_perm_live (ws live : List Word) (hnd : (texts ws).Nodup)
    (hlnd : (texts live).Nodup) (hmem : ∀ x ∈ live, x ∈ ws) :
    (ws.filter (fun x => decide (x.word ∉ texts live)) ++ live).Perm ws := by
  have hws : ws.Nodup := List.Nodup.of_map _ hnd
  have hlive : live.Nodup := List.Nodup.of_map _ hlnd
  have h1 := List.filter_append_perm (fun x => decide (x.word ∉ texts live)) ws
  have h2 : (ws.filter (fun x => !decide (x.word ∉ texts live))).Perm live := by
    rw [List.perm_ext_iff_of_nodup (hws.filter _) hlive]
    intro x
    constructor
    · intro hx
      obtain ⟨hx1, hx2⟩ := List.mem_filter.1 hx
      have hin : x.word ∈ texts live := by simpa using hx2
      obtain ⟨y, hy, hyx⟩ := List.mem_map.1 hin
      rw [← eq_of_word_eq ws y x hnd (hmem y hy) hx1 hyx]
      exact hy
    · intro hx
      refine List.mem_filter.2 ⟨hmem x hx, ?_⟩
      have : x.word ∈ texts live := List.mem_map_of_mem _ hx
      simpa using this
  exact (List.Perm.append_left _ h2.symm).trans h1

theorem matchedList_append (m : List (String × List Word)) (k : String) (v : List Word) :
    matchedList (m ++ [(k, v)]) = matchedList m ++ v := by
  simp [matchedList]

/-- Match evaluation keeps the invariant. -/
theorem gameInv_tryMatch (catalog : List (String × List String)) (b b1 : Board)
    (hwf : WellFormed catalog) (hb : GameInv catalog b) (ha : b.selectedAmount = 4)
    (h : tryMatch b = some b1) : GameInv catalog b1 := by
  have hnd := gameInv_texts_nodup catalog b hwf hb
  cases hs : b.selectedWords with
  | nil => simp [tryMatch, hs] at h
  | cons first rest =>
    rw [tryMatch_eq b first rest hs] at h
    injection h with h
    subst h
    split_ifs with hall
    · obtain ⟨hlt, hll⟩ := liveWords_of_live b.words b.selectedWords hnd hb.selLive
      have hmem : ∀ x ∈ liveWords b.words b.selectedWords, x ∈ b.words :=
        fun x hx => liveWords_mem _ _ x hx
      have hcat : ∀ x ∈ liveWords b.words b.selectedWords, x.category = first.category := by
        intro x hx
        simpa using (List.all_eq_true.1 hall) x hx
      have hlnd : (texts (liveWords b.words b.selectedWords)).Nodup := by
        rw [hlt]; exact hb.selNodup
      have hlive : (liveWords b.words b.selectedWords).Nodup := List.Nodup.of_map _ hlnd
      have hfour : 4 ≤ (liveWords b.words b.selectedWords).length := by
        have := hb.amount
        rw [ha] at this
        rw [hll]
        exact_mod_cast this
      have hcount : (liveWords b.words b.selectedWords).length ≤
          b.words.countP (fun x => decide (x.category = first.category)) := by
        have h1 := List.Subperm.countP_le (fun x => decide (x.category = first.category))
          (List.subperm_of_subset hlive (fun x hx => hmem x hx))
        have h2 : (liveWords b.words b.selectedWords).countP
            (fun x => decide (x.category = first.category)) =
            (liveWords b.words b.selectedWords).length := by
          rw [List.countP_eq_length]
          intro x hx
          simpa using hcat x hx
        omega
      have hbound := gameInv_category_bound catalog b hwf hb first.category
      have hfresh : first.category ∉ b.matchedWords.map Prod.fst := by
        intro hin
        obtain ⟨e, he, hek⟩ := List.mem_map.1 hin
        obtain ⟨hlen, hcats⟩ := hb.groups e he
        have hpos : 0 < (matchedList b.matchedWords).countP
            (fun x => decide (x.category = first.category)) := by
          rw [List.countP_pos_iff]
          cases hg : e.2 with
          | nil => rw [hg] at hlen; cases hlen
          | cons x xs =>
            have hx : x ∈ e.2 := by rw [hg]; exact List.mem_cons_self _ _
            refine ⟨x, List.mem_flatMap.2 ⟨e, he, hx⟩, ?_⟩
            simpa [hek] using hcats x hx
        omega
      have hlen4 : (liveWords b.words b.selectedWords).length = 4 := by omega
      simp only [addAttempt, resetSelection, dropAll_eq_filter _ _ hnd,
        mapSet_fresh _ _ _ hfresh]
      refine ⟨?_, ?_, ?_, List.nodup_nil, ?_, ?_, ?_⟩
      · show ((b.words.filter _ ++ matchedList (b.matchedWords ++ _)).map ident).Perm _
        rw [matchedList_append]
        refine List.Perm.trans (List.Perm.map ident ?_) hb.conserved
        have hp := removed_perm_live b.words _ hnd hlnd hmem
        refine List.Perm.trans ?_ (List.Perm.append_right _ hp)
        rw [List.append_assoc]
        exact List.Perm.append_left _ List.perm_append_comm
      · intro e he
        rcases List.mem_append.1 he with he' | he'
        · exact hb.groups e he'
        · rw [List.mem_singleton.1 he']
          exact ⟨hlen4, hcat⟩
      · show ((b.matchedWords ++ [(first.category, _)]).map Prod.fst).Nodup
        rw [List.map_append]
        refine List.nodup_append.2 ⟨hb.keys, List.nodup_singleton _, ?_⟩
        intro a ha1 ha2
        simp only [List.map_cons, List.map_nil, List.mem_singleton] at ha2
        exact hfresh (by rw [← ha2]; exact ha1)
      · intro s hs'; cases hs'
      · simp
      · show (b.attempts ++ [true]).count true = (b.matchedWords ++ [_]).length
        simp [List.count_append, hb.successes]
    · simp only [addAttempt, resetSelection]
      refine ⟨hb.conserved, hb.groups, hb.keys, List.nodup_nil, ?_, ?_, ?_⟩
      · intro s hs'; cases hs'
      · simp
      · show (b.attempts ++ [false]).count true = b.matchedWords.length
        simp [List.count_append, hb.successes]

/-- Every `clickWord` keeps the invariant. -/
theorem gameInv_clickWord (catalog : List (String × List String)) (b b1 : Board) (t : String)
    (hwf : WellFormed catalog) (hb : GameInv catalog b) (h : clickWord b t = some b1) :
    GameInv catalog b1 := by
  obtain ⟨b2, hl, hb2⟩ := gameInv_clickWordLoop catalog b t hwf hb
  simp only [clickWord, hl, Option.some_bind] at h
  split_ifs at h with h4
  · exact gameInv_tryMatch catalog b2 b1 hwf hb2 h4 h
  · injection h with h
    subst h
    exact hb2

/-- The invariant holds in every reachable board of a well-formed catalog. -/
theorem gameInv_reachable (catalog : List (String × List String)) (b : Board)
    (hwf : WellFormed catalog) (hr : Reachable catalog b) : GameInv catalog b := by
  induction hr with
  | start => exact gameInv_start catalog hwf
  | click b0 b1 t _ hc ih => exact gameInv_clickWord catalog b0 b1 t hwf ih hc

theorem reachable_clickWords (catalog : List (String × List String)) (ts : List String)
    (b b1 : Board) (hr : Reachable catalog b) (h : clickWords b ts = some b1) :
    Reachable catalog b1 := by
  induction ts generalizing b with
  | nil =>
    simp only [clickWords] at h
    injection h with h
    subst h
    exact hr
  | cons t rest ih =>
    simp only [clickWords] at h
    cases hc : clickWord b t with
    | none => simp [hc] at h
    | some b2 =>
      simp only [hc, Option.some_bind] at h
      exact ih b2 (Reachable.click b b2 t hr hc) h

theorem mainCatalog_wellFormed : WellFormed mainCatalog :=
  ⟨by decide, by decide, by decide⟩

theorem animalsMatchedBoard_reachable : Reachable mainCatalog animalsMatchedBoard :=
  reachable_clickWords mainCatalog ["dog", "cat", "bird", "fish"] (assembleBoard mainCatalog)
    animalsMatchedBoard Reachable.start (by decide)

theorem countP_eq_one_of_mem {α : Type} [DecidableEq α] (l : List α) (a : α)
    (hnd : l.Nodup) (ha : a ∈ l) : l.countP (fun q => decide (q = a)) = 1 := by
  have h := List.count_eq_one_of_mem hnd ha
  rw [List.count_eq_countP] at h
  rw [← h]
  apply List.countP_congr
  intro x _
  simp

/-- C6: in every board reachable from the assembled board of a well-formed
catalog, the words of `words` followed by all matched groups are, by text and
category, a rearrangement of the catalog; so every catalog word occurs exactly
once there, and every text exactly once. -/
theorem catalog_words_conserved (catalog : List (String × List String)) (b : Board)
    (hwf : WellFormed catalog) (hr : Reachable catalog b) :
    ((b.words ++ matchedList b.matchedWords).map ident).Perm (catalogWords catalog) ∧
    (∀ p ∈ catalogWords catalog,
      ((b.words ++ matchedList b.matchedWords).map ident).countP
        (fun q => decide (q = p)) = 1) ∧
    (∀ t ∈ (catalogWords catalog).map Prod.fst,
      (texts (b.words ++ matchedList b.matchedWords)).countP
        (fun q => decide (q = t)) = 1) := by
  have hinv := gameInv_reachable catalog b hwf hr
  have hcat : (catalogWords catalog).Nodup := List.Nodup.of_map _ hwf.2.2
  refine ⟨hinv.conserved, ?_, ?_⟩
  · intro p hp
    rw [hinv.conserved.countP_eq]
    exact countP_eq_one_of_mem _ p hcat hp
  · intro t ht
    rw [texts_eq_map_ident, (hinv.conserved.map Prod.fst).countP_eq]
    exact countP_eq_one_of_mem _ t hwf.2.2 ht

theorem catalog_words_conserved_witness :
    ((animalsMatchedBoard.words ++ matchedList animalsMatchedBoard.matchedWords).map
      ident).Perm (catalogWords mainCatalog) ∧
    (∀ p ∈ catalogWords mainCatalog,
      ((animalsMatchedBoard.words ++ matchedList animalsMatchedBoard.matchedWords).map
        ident).countP (fun q => decide (q = p)) = 1) ∧
    (∀ t ∈ (catalogWords mainCatalog).map Prod.fst,
      (texts (animalsMatchedBoard.words ++
        matchedList animalsMatchedBoard.matchedWords)).countP
          (fun q => decide (q = t)) = 1) :=
  catalog_words_conserved mainCatalog animalsMatchedBoard mainCatalog_wellFormed
    animalsMatchedBoard_reachable

/-! ## Winning takes a game without failed attempts -/

theorem accounted_start (catalog : List (String × List String)) (hwf : WellFormed catalog) :
    Accounted (assembleBoard catalog) := by
  have hinv := gameInv_start catalog hwf
  have ha := (assembleBoard_frame catalog).1
  have hat := (assembleBoard_frame catalog).2.2.2
  refine ⟨gameInv_texts_nodup catalog _ hwf hinv, ?_, ?_, fun _ => ha⟩
  · intro c
    have := gameInv_category_bound catalog _ hwf hinv c
    omega
  · rw [ha, hat]
    simp [failures]

theorem accounted_reachable (catalog : List (String × List String)) (b : Board)
    (hwf : WellFormed catalog) (hr : Reachable catalog b) : Accounted b := by
  induction hr with
  | start => exact accounted_start catalog hwf
  | click b0 b1 t _ hc ih => exact accounted_clickWord b0 b1 t ih hc

/-- On a well-formed catalog, a reachable board with no word left has no failed
attempt in its history: one failed attempt makes the game unwinnable. -/
theorem won_without_failure (catalog : List (String × List String)) (b : Board)
    (hwf : WellFormed catalog) (hr : Reachable catalog b) (hw : b.words = []) :
    failures b.attempts = 0 :=
  accounted_won b (accounted_reachable catalog b hwf hr) hw

/-! ## `addLine` and `assembleBoard` -/

/-- C11: `addLine` returns an error exactly when the line does not have 4 words;
then the board is returned unchanged; otherwise the 4 words are appended to
`words` in order, with the given category and unselected, and nothing else
changes. -/
theorem addLine_spec (b : Board) (line : List String) (category : String) :
    ((addLine b line category).2 ≠ none ↔ line.length ≠ 4) ∧
    addLine b line category =
      if line.length = 4 then
        ({ b with words := b.words ++ line.map (fun t => freshWord t category) }, none)
      else (b, some "a line must have 4 words") := by
  by_cases h : line.length = 4
  · simp only [addLine, h, ne_eq, not_true_eq_false, if_false, if_true]
    refine ⟨by simp, ?_⟩
    have hw := foldl_addWord_words line category b
    have hf := foldl_addWord_frame line category b
    generalize line.foldl (fun acc word => addWord acc word category) b = r at hw hf
    cases r
    cases b
    simp only [Prod.mk.injEq, and_true] at hw hf ⊢
    simp_all
  · simp [addLine, h]

/-- C16: for a catalog whose categories all have exactly 4 words, `assembleBoard`
returns the board whose `words` are the catalog words, category after category
in the order visited and in line order within a category, all unselected, with
an empty selection, selected count 0, no matched group and no attempt. -/
theorem assembleBoard_spec (catalog : List (String × List String))
    (hlen : ∀ e ∈ catalog, e.2.length = 4) :
    assembleBoard catalog =
      ⟨catalog.flatMap (fun e => e.2.map (fun t => freshWord t e.1)), 0, [], [], []⟩ := by
  have hw := assembleBoard_words catalog hlen
  have hf := assembleBoard_frame catalog
  generalize assembleBoard catalog = r at hw hf
  cases r
  simp_all

theorem assembleBoard_spec_witness :
    assembleBoard mainCatalog =
      ⟨mainCatalog.flatMap (fun e => e.2.map (fun t => freshWord t e.1)), 0, [], [], []⟩ :=
  assembleBoard_spec mainCatalog (by decide)

/-! ## The loop of `clickWord` on arbitrary boards -/

/-- The loop body never panics at an index inside `words`; it leaves `attempts`,
`matchedWords` and the length of `words` alone, and keeps the selected count at
most the length of the selection. -/
theorem clickWordBody_total (b : Board) (i : Nat) (w : Word) (hi : i < b.words.length) :
    ∃ b1, clickWordBody b i w = some b1 ∧ b1.attempts = b.attempts ∧
      b1.matchedWords = b.matchedWords ∧ b1.words.length = b.words.length ∧
      (b.selectedAmount ≤ (b.selectedWords.length : Int) →
        b1.selectedAmount ≤ (b1.selectedWords.length : Int)) := by
  have hget : b.words[i]? = some (b.words[i]) := List.getElem?_eq_getElem hi
  simp only [clickWordBody, hget]
  cases hsel : (b.words[i]).selected with
  | false =>
    simp only [Bool.not_false, if_true]
    refine ⟨_, rfl, rfl, rfl, by simp, ?_⟩
    intro h
    show b.selectedAmount + 1 ≤ ((b.selectedWords ++ [w]).length : Int)
    simp only [List.length_append, List.length_singleton, Nat.cast_add, Nat.cast_one]
    omega
  | true =>
    simp only [Bool.not_true, Bool.false_eq_true, if_false, findSelectedWordIndex_eq]
    have hs := findWordIndex_splice b.selectedWords w.word
    cases hf : findWordIndex b.selectedWords w.word with
    | none =>
      refine ⟨_, rfl, rfl, rfl, by simp, ?_⟩
      intro h
      show b.selectedAmount - 1 ≤ (b.selectedWords.length : Int)
      omega
    | some idx =>
      obtain ⟨hlt, heq⟩ := hs.1 idx hf
      simp only [deSelectWord, hlt, if_true]
      refine ⟨_, rfl, rfl, rfl, by simp, ?_⟩
      intro h
      show b.selectedAmount - 1 ≤
        ((b.selectedWords.take idx ++ b.selectedWords.drop (idx + 1)).length : Int)
      rw [heq]
      have := dropText_length w.word b.selectedWords
      omega

/-- The loop of `clickWord` never panics as long as the words still to visit fit
in `words`; it leaves `attempts`, `matchedWords` and the length of `words`
alone, and keeps the selected count at most the length of the selection. -/
theorem clickWordLoop_total (t : String) (ws : List Word) (i : Nat) (b : Board)
    (hfit : i + ws.length ≤ b.words.length) :
    ∃ b2, clickWordLoop t ws i b = some b2 ∧ b2.attempts = b.attempts ∧
      b2.matchedWords = b.matchedWords ∧ b2.words.length = b.words.length ∧
      (b.selectedAmount ≤ (b.selectedWords.length : Int) →
        b2.selectedAmount ≤ (b2.selectedWords.length : Int)) := by
  induction ws generalizing i b with
  | nil => exact ⟨b, rfl, rfl, rfl, rfl, fun h => h⟩
  | cons w rest ih =>
    simp only [List.length_cons] at hfit
    by_cases hw : w.word = t
    · obtain ⟨b1, hb1, ha1, hm1, hl1, hs1⟩ := clickWordBody_total b i w (by omega)
      obtain ⟨b2, hb2, ha2, hm2, hl2, hs2⟩ := ih (i + 1) b1 (by omega)
      refine ⟨b2, ?_, ha2.trans ha1, hm2.trans hm1, hl2.trans hl1, fun h => hs2 (hs1 h)⟩
      simp [clickWordLoop, hw, hb1, hb2]
    · obtain ⟨b2, hb2, ha2, hm2, hl2, hs2⟩ := ih (i + 1) b (by omega)
      exact ⟨b2, by simp [clickWordLoop, hw, hb2], ha2, hm2, hl2, hs2⟩

/-- C15: for every board and text, `clickWord` either panics inside an evaluation
or returns a board whose `attempts` extend the previous ones by at most one
entry; they are one entry longer exactly when the call reached `tryMatch`. -/
theorem clickWord_attempts (b : Board) (t : String) :
    (clickWord b t = none ∧ evaluates b t = true) ∨
    ∃ b1, clickWord b t = some b1 ∧ b.attempts <+: b1.attempts ∧
      b1.attempts.length ≤ b.attempts.length + 1 ∧
      (b1.attempts.length = b.attempts.length + 1 ↔ evaluates b t = true) := by
  obtain ⟨b2, hb2, ha2, _, _, _⟩ := clickWordLoop_total t b.words 0 b (by omega)
  by_cases h4 : b2.selectedAmount = 4
  · have hev : evaluates b t = true := by simp [evaluates, hb2, h4]
    have hcw : clickWord b t = tryMatch b2 := by simp [clickWord, hb2, h4]
    cases hs : b2.selectedWords with
    | nil =>
      left
      exact ⟨by rw [hcw]; simp [tryMatch, hs], hev⟩
    | cons first rest =>
      right
      rw [hcw, tryMatch_eq b2 first rest hs]
      refine ⟨_, rfl, ?_⟩
      split_ifs <;> simp [addAttempt, resetSelection, ha2, hev]
  · have hev : ¬ (evaluates b t = true) := by simp [evaluates, hb2, h4]
    right
    refine ⟨b2, by simp [clickWord, hb2, h4], ?_⟩
    rw [ha2]
    simp [hev]

/-! ## No index out of range -/

theorem amount_le_clickWord (b b1 : Board) (t : String)
    (h : b.selectedAmount ≤ (b.selectedWords.length : Int)) (hc : clickWord b t = some b1) :
    b1.selectedAmount ≤ (b1.selectedWords.length : Int) := by
  obtain ⟨b2, hb2, _, _, _, hs2⟩ := clickWordLoop_total t b.words 0 b (by omega)
  simp only [clickWord, hb2, Option.some_bind] at hc
  split_ifs at hc with h4
  · obtain ⟨e1, e2⟩ := tryMatch_reset b2 b1 hc
    rw [e1, e2]
    simp
  · injection hc with hc
    subst hc
    exact hs2 h

theorem amount_le_reachable (catalog : List (String × List String)) (b : Board)
    (hr : Reachable catalog b) : b.selectedAmount ≤ (b.selectedWords.length : Int) := by
  induction hr with
  | start =>
    rw [(assembleBoard_frame catalog).1, (assembleBoard_frame catalog).2.1]
    simp
  | click b0 b1 t _ hc ih => exact amount_le_clickWord b0 b1 t ih hc

/-- C19: in every board reachable from the assembled board of any catalog, the
selected count is at most the length of the selection; for any text the loop of
`clickWord` runs without a panic, the selection is non-empty whenever it ends
with the count at 4, so that `tryMatch` can read its first word, and the whole
call returns a board: no index or slice bound is out of range. -/
theorem clickWord_in_bounds (catalog : List (String × List String)) (b : Board) (t : String)
    (hr : Reachable catalog b) :
    b.selectedAmount ≤ (b.selectedWords.length : Int) ∧
    (∃ b2, clickWordLoop t b.words 0 b = some b2 ∧
      (b2.selectedAmount = 4 → ∃ first, b2.selectedWords[0]? = some first)) ∧
    (∃ b1, clickWord b t = some b1) ∧
    (∀ index, findSelectedWordIndex b.selectedWords t = some index →
      index < b.selectedWords.length) ∧
    (∀ index, findWordIndex b.words t = some index → index < b.words.length) := by
  have hle := amount_le_reachable catalog b hr
  obtain ⟨b2, hb2, _, _, _, hs2⟩ := clickWordLoop_total t b.words 0 b (by omega)
  have hne : b2.selectedAmount = 4 → ∃ first rest, b2.selectedWords = first :: rest := by
    intro h4
    have := hs2 hle
    rw [h4] at this
    cases hs : b2.selectedWords with
    | nil => rw [hs] at this; simp at this
    | cons first rest => exact ⟨first, rest, rfl⟩
  refine ⟨hle, ⟨b2, hb2, ?_⟩, ?_, ?_, ?_⟩
  · intro h4
    obtain ⟨first, rest, hs⟩ := hne h4
    exact ⟨first, by simp [hs]⟩
  · by_cases h4 : b2.selectedAmount = 4
    · obtain ⟨first, rest, hs⟩ := hne h4
      have hcw : clickWord b t = tryMatch b2 := by simp [clickWord, hb2, h4]
      exact ⟨_, hcw.trans (tryMatch_eq b2 first rest hs)⟩
    · exact ⟨b2, by simp [clickWord, hb2, h4]⟩
  · intro index hi
    rw [findSelectedWordIndex_eq] at hi
    exact ((findWordIndex_splice b.selectedWords t).1 index hi).1
  · intro index hi
    exact ((findWordIndex_splice b.words t).1 index hi).1

theorem clickWord_in_bounds_witness :
    animalsMatchedBoard.selectedAmount ≤ (animalsMatchedBoard.selectedWords.length : Int) ∧
    (∃ b2, clickWordLoop "red" animalsMatchedBoard.words 0 animalsMatchedBoard = some b2 ∧
      (b2.selectedAmount = 4 → ∃ first, b2.selectedWords[0]? = some first)) ∧
    (∃ b1, clickWord animalsMatchedBoard "red" = some b1) ∧
    (∀ index, findSelectedWordIndex animalsMatchedBoard.selectedWords "red" = some index →
      index < animalsMatchedBoard.selectedWords.length) ∧
    (∀ index, findWordIndex animalsMatchedBoard.words "red" = some index →
      index < animalsMatchedBoard.words.length) :=
  clickWord_in_bounds mainCatalog animalsMatchedBoard "red" animalsMatchedBoard_reachable

/-! ## The selection on boards with pairwise different texts -/

theorem selInv_clickWordLoop (b : Board) (t : String) (hb : SelInv b) :
    ∃ b2, clickWordLoop t b.words 0 b = some b2 ∧ SelInv b2 := by
  have hnd := hb.wordsNodup
  by_cases hpres : ∃ w ∈ b.words, w.word = t
  · obtain ⟨w, hw, rfl⟩ := hpres
    refine ⟨_, clickWordLoop_present b w hnd hw, ?_⟩
    have hnd2 : (texts (toggle w.word b.words)).Nodup := by simpa [texts_toggle] using hnd
    cases hsel : w.selected with
    | false =>
      simp only [Bool.false_eq_true, if_false]
      have hnew : w.word ∉ texts b.selectedWords := by
        intro hin
        obtain ⟨s, hs, hsw⟩ := List.mem_map.1 hin
        obtain ⟨x, hx, hxw, _, hxs⟩ := hb.selLive s hs
        have := eq_of_word_eq b.words x w hnd hx hw (hxw.trans hsw)
        rw [this, hsel] at hxs
        cases hxs
      refine ⟨hnd2, ?_, ?_⟩
      · show (texts (b.selectedWords ++ [w])).Nodup
        simp only [texts, List.map_append, List.map_cons, List.map_nil]
        refine List.nodup_append.2 ⟨hb.selNodup, List.nodup_singleton _, ?_⟩
        intro a ha1 ha2
        rw [List.mem_singleton.1 ha2] at ha1
        exact hnew ha1
      · intro s hs
        rcases List.mem_append.1 hs with hs1 | hs1
        · obtain ⟨x, hx, hxw, hxc, hxs⟩ := hb.selLive s hs1
          refine ⟨x, mem_toggle_of_ne _ _ x hx ?_, hxw, hxc, hxs⟩
          intro hxe
          exact hnew (by rw [← hxe, hxw]; exact List.mem_map_of_mem _ hs1)
        · rw [List.mem_singleton.1 hs1]
          exact ⟨_, mem_toggle_of_mem b.words w hw, rfl, rfl, by simp [hsel]⟩
    | true =>
      simp only [if_true]
      refine ⟨hnd2, List.Nodup.sublist ((dropText_sublist _ _).map _) hb.selNodup, ?_⟩
      intro s hs
      have hne := word_ne_of_mem_dropText w.word b.selectedWords hb.selNodup s hs
      obtain ⟨x, hx, hxw, hxc, hxs⟩ := hb.selLive s ((dropText_sublist _ _).subset hs)
      exact ⟨x, mem_toggle_of_ne _ _ x hx (by rw [hxw]; exact hne), hxw, hxc, hxs⟩
  · have habs : ∀ w ∈ b.words, w.word ≠ t := fun w hw hwt => hpres ⟨w, hw, hwt⟩
    exact ⟨b, clickWordLoop_absent t b.words 0 b habs, hb⟩

theorem selInv_tryMatch (b b1 : Board) (hb : SelInv b) (h : tryMatch b = some b1) :
    SelInv b1 := by
  obtain ⟨e1, e2⟩ := tryMatch_reset b b1 h
  have hw : (texts b1.words).Nodup := by
    cases hs : b.selectedWords with
    | nil => simp [tryMatch, hs] at h
    | cons first rest =>
      rw [tryMatch_eq b first rest hs] at h
      injection h with h
      subst h
      split_ifs
      · simp only [addAttempt, resetSelection, dropAll_eq_filter _ _ hb.wordsNodup]
        exact texts_filter_nodup _ _ hb.wordsNodup
      · exact hb.wordsNodup
  refine ⟨hw, ?_, ?_⟩
  · rw [e2]; exact List.nodup_nil
  · rw [e2]; intro s hs; cases hs

theorem selInv_clickWord (b b1 : Board) (t : String) (hb : SelInv b)
    (h : clickWord b t = some b1) : SelInv b1 := by
  obtain ⟨b2, hl, hb2⟩ := selInv_clickWordLoop b t hb
  simp only [clickWord, hl, Option.some_bind] at h
  split_ifs at h
  · exact selInv_tryMatch b2 b1 hb2 h
  · injection h with h
    subst h
    exact hb2

theorem selInv_reachable (catalog : List (String × List String)) (b : Board)
    (hnd : (texts (assembleBoard catalog).words).Nodup) (hr : Reachable catalog b) :
    SelInv b := by
  induction hr with
  | start =>
    refine ⟨hnd, ?_, ?_⟩
    · rw [(assembleBoard_frame catalog).2.1]; exact List.nodup_nil
    · rw [(assembleBoard_frame catalog).2.1]; intro s hs; cases hs
  | click b0 b1 t _ hc ih => exact selInv_clickWord b0 b1 t ih hc

theorem dogSelectedBoard_reachable : Reachable mainCatalog dogSelectedBoard :=
  reachable_clickWords mainCatalog ["dog"] (assembleBoard mainCatalog) dogSelectedBoard
    Reachable.start (by decide)

/-- C13: in every board reachable from an assembled board with pairwise
different texts, every word of the selection has its text on a word of `words`
that is marked selected, and no text occurs twice in the selection. -/
theorem selection_live (catalog : List (String × List String)) (b : Board)
    (hnd : (texts (assembleBoard catalog).words).Nodup) (hr : Reachable catalog b) :
    (∀ s ∈ b.selectedWords, ∃ x ∈ b.words, x.word = s.word ∧ x.selected = true) ∧
    (texts b.selectedWords).Nodup ∧ b.selectedWords.Nodup := by
  have hinv := selInv_reachable catalog b hnd hr
  refine ⟨?_, hinv.selNodup, List.Nodup.of_map _ hinv.selNodup⟩
  intro s hs
  obtain ⟨x, hx, hxw, _, hxs⟩ := hinv.selLive s hs
  exact ⟨x, hx, hxw, hxs⟩

theorem selection_live_witness :
    (∀ s ∈ dogSelectedBoard.selectedWords,
      ∃ x ∈ dogSelectedBoard.words, x.word = s.word ∧ x.selected = true) ∧
    (texts dogSelectedBoard.selectedWords).Nodup ∧ dogSelectedBoard.selectedWords.Nodup :=
  selection_live mainCatalog dogSelectedBoard (by decide) dogSelectedBoard_reachable

/-! ## Removal by splicing is a filter -/

theorem liveWords_present (ws sel : List Word) (c : String) (hnd : (texts ws).Nodup)
    (h : ∀ s ∈ sel, ∃ x ∈ ws, x.word = s.word ∧ x.category = c) :
    texts (liveWords ws sel) = texts sel ∧ ∀ y ∈ liveWords ws sel, y.category = c := by
  induction sel with
  | nil => simp [liveWords, texts]
  | cons s rest ih =>
    obtain ⟨x, hx, hxw, hxc⟩ := h s (List.mem_cons_self _ _)
    have hf := find_of_mem ws x hnd hx
    rw [hxw] at hf
    have hrest := ih (fun y hy => h y (List.mem_cons_of_mem _ hy))
    have e : liveWords ws (s :: rest) = x :: liveWords ws rest := by
      simp [liveWords, List.filterMap_cons, hf]
    rw [e]
    constructor
    · show x.word :: texts (liveWords ws rest) = s.word :: texts rest
      rw [hrest.1, hxw]
    · intro y hy
      rcases List.mem_cons.1 hy with rfl | hy1
      · exact hxc
      · exact hrest.2 y hy1

/-- C17: on a board with pairwise different texts whose selection holds four
words of one category that all stand on the board, `tryMatch` returns, and its
`words` are the previous `words` without the words whose text is selected: the
other words are kept as they are, in their order. -/
theorem tryMatch_removal_filter (b : Board) (c : String) (hnd : (texts b.words).Nodup)
    (hlen : b.selectedWords.length = 4)
    (hsel : ∀ s ∈ b.selectedWords,
      s.category = c ∧ ∃ x ∈ b.words, x.word = s.word ∧ x.category = c) :
    ∃ b1, tryMatch b = some b1 ∧
      b1.words = b.words.filter (fun x => decide (x.word ∉ texts b.selectedWords)) ∧
      b1.words.Sublist b.words := by
  cases hs : b.selectedWords with
  | nil => rw [hs] at hlen; cases hlen
  | cons first rest =>
    have hfirst : first.category = c := (hsel first (by rw [hs]; exact List.mem_cons_self _ _)).1
    obtain ⟨hlt, hlc⟩ := liveWords_present b.words b.selectedWords c hnd
      (fun s hs1 => (hsel s hs1).2)
    have hall : (liveWords b.words b.selectedWords).all
        (fun x => decide (x.category = first.category)) = true := by
      rw [List.all_eq_true]
      intro x hx
      simpa [hfirst] using hlc x hx
    have hw : dropAll (liveWords b.words b.selectedWords) b.words =
        b.words.filter (fun x => decide (x.word ∉ texts b.selectedWords)) := by
      rw [dropAll_eq_filter _ _ hnd, hlt]
    refine ⟨_, tryMatch_eq b first rest hs, ?_⟩
    rw [if_pos hall]
    refine ⟨?_, ?_⟩
    · show dropAll (liveWords b.words b.selectedWords) b.words = _
      rw [hw, hs]
    · show (dropAll (liveWords b.words b.selectedWords) b.words).Sublist b.words
      rw [hw]
      exact List.filter_sublist _

theorem tryMatch_removal_filter_witness :
    ∃ b1, tryMatch animalsSelectedBoard = some b1 ∧
      b1.words = animalsSelectedBoard.words.filter
        (fun x => decide (x.word ∉ texts animalsSelectedBoard.selectedWords)) ∧
      b1.words.Sublist animalsSelectedBoard.words :=
  tryMatch_removal_filter animalsSelectedBoard "animals" (by decide) (by decide) (by decide)

/-! ## Matched groups on a well-formed catalog -/

theorem mapGet_eq_none_of_not_mem (m : List (String × List Word)) (k : String)
    (hk : k ∉ m.map Prod.fst) : mapGet m k = none := by
  induction m with
  | nil => rfl
  | cons e rest ih =>
    have h1 : e.1 ≠ k := fun h => hk (by simp [h])
    have h2 : k ∉ rest.map Prod.fst := fun h => hk (by simp [h])
    simp [mapGet, h1, ih h2]

theorem mapGet_append_left (m l : List (String × List Word)) (k : String) (g : List Word)
    (h : mapGet m k = some g) : mapGet (m ++ l) k = some g := by
  induction m with
  | nil => simp [mapGet] at h
  | cons e rest ih =>
    by_cases h1 : e.1 = k
    · simpa [mapGet, h1] using h
    · simp only [mapGet, h1, if_false] at h
      simp [mapGet, h1, ih h]

theorem mem_of_mapGet (m : List (String × List Word)) (k : String) (g : List Word)
    (h : mapGet m k = some g) : (k, g) ∈ m := by
  induction m with
  | nil => simp [mapGet] at h
  | cons e rest ih =>
    by_cases h1 : e.1 = k
    · simp only [mapGet, h1, if_true, Option.some.injEq] at h
      rw [← h, ← h1]
      exact List.mem_cons_self _ _
    · simp only [mapGet, h1, if_false] at h
      exact List.mem_cons_of_mem _ (ih h)

/-- Under the invariant, a successful evaluation finds a category that has no
group yet. -/
theorem gameInv_fresh_category (catalog : List (String × List String)) (b : Board)
    (first : Word) (hwf : WellFormed catalog) (hb : GameInv catalog b)
    (ha : b.selectedAmount = 4)
    (hall : (liveWords b.words b.selectedWords).all
      (fun x => decide (x.category = first.category)) = true) :
    first.category ∉ b.matchedWords.map Prod.fst := by
  have hnd := gameInv_texts_nodup catalog b hwf hb
  obtain ⟨hlt, hll⟩ := liveWords_of_live b.words b.selectedWords hnd hb.selLive
  have hmem : ∀ x ∈ liveWords b.words b.selectedWords, x ∈ b.words :=
    fun x hx => liveWords_mem _ _ x hx
  have hcat : ∀ x ∈ liveWords b.words b.selectedWords, x.category = first.category := by
    intro x hx
    simpa using (List.all_eq_true.1 hall) x hx
  have hlive : (liveWords b.words b.selectedWords).Nodup := by
    apply List.Nodup.of_map Word.word
    show (texts (liveWords b.words b.selectedWords)).Nodup
    rw [hlt]; exact hb.selNodup
  have hfour : 4 ≤ (liveWords b.words b.selectedWords).length := by
    have := hb.amount
    rw [ha] at this
    rw [hll]
    exact_mod_cast this
  have hcount : (liveWords b.words b.selectedWords).length ≤
      b.words.countP (fun x => decide (x.category = first.category)) := by
    have h1 := List.Subperm.countP_le (fun x => decide (x.category = first.category))
      (List.subperm_of_subset hlive (fun x hx => hmem x hx))
    have h2 : (liveWords b.words b.selectedWords).countP
        (fun x => decide (x.category = first.category)) =
        (liveWords b.words b.selectedWords).length := by
      rw [List.countP_eq_length]
      intro x hx
      simpa using hcat x hx
    omega
  have hbound := gameInv_category_bound catalog b hwf hb first.category
  intro hin
  obtain ⟨e, he, hek⟩ := List.mem_map.1 hin
  obtain ⟨hlen, hcats⟩ := hb.groups e he
  have hpos : 0 < (matchedList b.matchedWords).countP
      (fun x => decide (x.category = first.category)) := by
    rw [List.countP_pos_iff]
    cases hg : e.2 with
    | nil => rw [hg] at hlen; cases hlen
    | cons x xs =>
      have hx : x ∈ e.2 := by rw [hg]; exact List.mem_cons_self _ _
      refine ⟨x, List.mem_flatMap.2 ⟨e, he, hx⟩, ?_⟩
      simpa [hek] using hcats x hx
  omega

/-- C14: on a well-formed catalog, a `clickWord` call from a reachable board
keeps every group of `matchedWords` as it is, and either leaves `matchedWords`
alone or adds one group under a category that had none. -/
theorem matched_groups_written_once (catalog : List (String × List String))
    (b b1 : Board) (t : String) (hwf : WellFormed catalog) (hr : Reachable catalog b)
    (hc : clickWord b t = some b1) :
    (∀ k g, mapGet b.matchedWords k = some g → mapGet b1.matchedWords k = some g) ∧
    (b1.matchedWords = b.matchedWords ∨
      ∃ c g, mapGet b.matchedWords c = none ∧
        b1.matchedWords = b.matchedWords ++ [(c, g)]) := by
  have hb := gameInv_reachable catalog b hwf hr
  obtain ⟨b2, hl, hb2⟩ := gameInv_clickWordLoop catalog b t hwf hb
  obtain ⟨b3, hl3, _, hm3, _, _⟩ := clickWordLoop_total t b.words 0 b (by omega)
  have e23 : b3 = b2 := by
    rw [hl] at hl3
    injection hl3 with h
    exact h.symm
  subst e23
  have key : b1.matchedWords = b.matchedWords ∨
      ∃ c g, mapGet b.matchedWords c = none ∧
        b1.matchedWords = b.matchedWords ++ [(c, g)] := by
    simp only [clickWord, hl, Option.some_bind] at hc
    split_ifs at hc with h4
    · cases hs : b3.selectedWords with
      | nil => simp [tryMatch, hs] at hc
      | cons first rest =>
        rw [tryMatch_eq b3 first rest hs] at hc
        injection hc with hc
        subst hc
        split_ifs with hall
        · right
          have hfresh := gameInv_fresh_category catalog b3 first hwf hb2 h4 hall
          refine ⟨first.category, liveWords b3.words b3.selectedWords, ?_, ?_⟩
          · rw [← hm3]
            exact mapGet_eq_none_of_not_mem _ _ hfresh
          · show mapSet b3.matchedWords _ _ = _
            rw [mapSet_fresh _ _ _ hfresh, hm3]
        · left
          simp only [addAttempt, resetSelection, hm3]
    · injection hc with hc
      subst hc
      exact Or.inl hm3
  refine ⟨?_, key⟩
  intro k g hk
  rcases key with e | ⟨c, g1, _, e⟩
  · rw [e]; exact hk
  · rw [e]; exact mapGet_append_left _ _ k g hk

theorem threeAnimalsBoard_reachable : Reachable mainCatalog threeAnimalsBoard :=
  reachable_clickWords mainCatalog ["dog", "cat", "bird"] (assembleBoard mainCatalog)
    threeAnimalsBoard Reachable.start (by decide)

theorem matched_groups_written_once_witness :
    (∀ k g, mapGet threeAnimalsBoard.matchedWords k = some g →
      mapGet animalsMatchedBoard.matchedWords k = some g) ∧
    (animalsMatchedBoard.matchedWords = threeAnimalsBoard.matchedWords ∨
      ∃ c g, mapGet threeAnimalsBoard.matchedWords c = none ∧
        animalsMatchedBoard.matchedWords = threeAnimalsBoard.matchedWords ++ [(c, g)]) :=
  matched_groups_written_once mainCatalog threeAnimalsBoard animalsMatchedBoard "fish"
    mainCatalog_wellFormed threeAnimalsBoard_reachable (by decide)

theorem sublist_matchedList (m : List (String × List Word)) (e : String × List Word)
    (he : e ∈ m) : e.2.Sublist (matchedList m) := by
  induction m with
  | nil => cases he
  | cons x rest ih =>
    have hc : matchedList (x :: rest) = x.2 ++ matchedList rest := by simp [matchedList]
    rw [hc]
    rcases List.mem_cons.1 he with rfl | h
    · exact List.sublist_append_left _ _
    · exact (ih h).trans (List.sublist_append_right _ _)

theorem matchedList_length (m : List (String × List Word))
    (h : ∀ e ∈ m, e.2.length = 4) : (matchedList m).length = 4 * m.length := by
  induction m with
  | nil => rfl
  | cons x rest ih =>
    have hc : matchedList (x :: rest) = x.2 ++ matchedList rest := by simp [matchedList]
    have h1 := h x (List.mem_cons_self _ _)
    have h2 := ih (fun e he => h e (List.mem_cons_of_mem _ he))
    rw [hc, List.length_append, h1, h2, List.length_cons]
    omega

theorem catalogWords_length (catalog : List (String × List String))
    (h : ∀ e ∈ catalog, e.2.length = 4) :
    (catalogWords catalog).length = 4 * catalog.length := by
  induction catalog with
  | nil => rfl
  | cons x rest ih =>
    have hc : catalogWords (x :: rest) = x.2.map (fun t => (t, x.1)) ++ catalogWords rest := by
      simp [catalogWords]
    have h1 := h x (List.mem_cons_self _ _)
    have h2 := ih (fun e he => h e (List.mem_cons_of_mem _ he))
    rw [hc, List.length_append, List.length_map, h1, h2, List.length_cons]
    omega

theorem mem_catalogWords (catalog : List (String × List String)) (t c : String)
    (h : (t, c) ∈ catalogWords catalog) : ∃ e ∈ catalog, e.1 = c ∧ t ∈ e.2 := by
  simp only [catalogWords, List.mem_flatMap, List.mem_map] at h
  obtain ⟨e, he, t1, ht1, heq⟩ := h
  simp only [Prod.mk.injEq] at heq
  exact ⟨e, he, heq.2, by rw [← heq.1]; exact ht1⟩

theorem findWordIndex_ne_none (ws : List Word) (x : Word) (hx : x ∈ ws) :
    findWordIndex ws x.word ≠ none := by
  intro h
  rcases findWordIndex_find ws x.word with ⟨_, h2⟩ | ⟨i, y, h1, _, _⟩
  · have := List.find?_eq_none.1 h2 x hx
    simp at this
  · rw [h] at h1
    cases h1

/-- C18: on a well-formed catalog, in every reachable board each group of
`matchedWords` holds exactly 4 words, all of the category it is stored under,
and their texts are the 4 words of that category in the catalog; and whenever
the loop of `clickWord` ends with the count at 4, every selected word is found
in `words`, so `tryMatch` never skips one. -/
theorem matched_groups_full (catalog : List (String × List String)) (b : Board)
    (hwf : WellFormed catalog) (hr : Reachable catalog b) :
    (∀ k g, mapGet b.matchedWords k = some g →
      g.length = 4 ∧ (∀ x ∈ g, x.category = k) ∧
      ∃ line, (k, line) ∈ catalog ∧ (texts g).Perm line) ∧
    (∀ t b2, clickWordLoop t b.words 0 b = some b2 → b2.selectedAmount = 4 →
      ∀ s ∈ b2.selectedWords, findWordIndex b2.words s.word ≠ none) := by
  have hb := gameInv_reachable catalog b hwf hr
  constructor
  · intro k g hk
    have he := mem_of_mapGet _ _ _ hk
    obtain ⟨hlen, hcats⟩ := hb.groups (k, g) he
    refine ⟨hlen, hcats, ?_⟩
    have hsub := sublist_matchedList b.matchedWords (k, g) he
    have hin : ∀ x ∈ g, ∃ e ∈ catalog, e.1 = k ∧ x.word ∈ e.2 := by
      intro x hx
      have h1 : ident x ∈ (b.words ++ matchedList b.matchedWords).map ident :=
        List.mem_map_of_mem _ (List.mem_append_right _ (hsub.subset hx))
      have h2 := hb.conserved.mem_iff.1 h1
      have h3 : ident x = (x.word, k) := by simp [ident, hcats x hx]
      rw [h3] at h2
      exact mem_catalogWords catalog x.word k h2
    cases hg : g with
    | nil => rw [hg] at hlen; cases hlen
    | cons x0 xs =>
      have hx0 : x0 ∈ g := by rw [hg]; exact List.mem_cons_self _ _
      obtain ⟨e0, he0, hk0, _⟩ := hin x0 hx0
      refine ⟨e0.2, by rw [← hk0]; exact he0, ?_⟩
      rw [← hg]
      have hgnd : (texts g).Nodup := by
        have hall := gameInv_all_texts_nodup catalog b hwf hb
        simp only [texts, List.map_append] at hall
        exact List.Nodup.sublist (hsub.map _) (List.nodup_append.1 hall).2.1
      have hsubset : texts g ⊆ e0.2 := by
        intro t ht
        obtain ⟨x, hx, rfl⟩ := List.mem_map.1 ht
        obtain ⟨e, he1, hk1, hxe⟩ := hin x hx
        have : e = e0 := List.inj_on_of_nodup_map hwf.2.1 he1 he0 (hk1.trans hk0.symm)
        rw [← this]
        exact hxe
      apply List.Subperm.perm_of_length_le (List.subperm_of_subset hgnd hsubset)
      rw [hwf.1 e0 he0]
      simp [texts, hlen]
  · intro t b2 hl h4 s hs
    obtain ⟨b3, hl3, hb3⟩ := gameInv_clickWordLoop catalog b t hwf hb
    rw [hl] at hl3
    injection hl3 with e
    subst e
    obtain ⟨x, hx, hxw, _, _⟩ := hb3.selLive s hs
    rw [← hxw]
    exact findWordIndex_ne_none b2.words x hx

theorem matched_groups_full_witness :
    (∀ k g, mapGet animalsMatchedBoard.matchedWords k = some g →
      g.length = 4 ∧ (∀ x ∈ g, x.category = k) ∧
      ∃ line, (k, line) ∈ mainCatalog ∧ (texts g).Perm line) ∧
    (∀ t b2, clickWordLoop t animalsMatchedBoard.words 0 animalsMatchedBoard = some b2 →
      b2.selectedAmount = 4 →
      ∀ s ∈ b2.selectedWords, findWordIndex b2.words s.word ≠ none) :=
  matched_groups_full mainCatalog animalsMatchedBoard mainCatalog_wellFormed
    animalsMatchedBoard_reachable

/-- C20: on a well-formed catalog of n categories, in every reachable board the
number of `true` entries of `attempts` is the number k of matched groups,
`words` holds exactly 4 * (n - k) words with k at most n, and `words` is empty
exactly when n successful attempts have been recorded. -/
theorem progress_accounting (catalog : List (String × List String)) (b : Board)
    (hwf : WellFormed catalog) (hr : Reachable catalog b) :
    b.attempts.count true = b.matchedWords.length ∧
    b.matchedWords.length ≤ catalog.length ∧
    b.words.length = 4 * (catalog.length - b.matchedWords.length) ∧
    (b.words = [] ↔ b.attempts.count true = catalog.length) := by
  have hb := gameInv_reachable catalog b hwf hr
  have h1 := hb.conserved.length_eq
  rw [List.length_map, List.length_append, catalogWords_length catalog hwf.1,
    matchedList_length _ (fun e he => (hb.groups e he).1)] at h1
  have h2 := hb.successes
  refine ⟨h2, by omega, by omega, ?_⟩
  rw [← List.length_eq_zero, h2]
  omega

theorem progress_accounting_witness :
    animalsMatchedBoard.attempts.count true = animalsMatchedBoard.matchedWords.length ∧
    animalsMatchedBoard.matchedWords.length ≤ mainCatalog.length ∧
    animalsMatchedBoard.words.length =
      4 * (mainCatalog.length - animalsMatchedBoard.matchedWords.length) ∧
    (animalsMatchedBoard.words = [] ↔
      animalsMatchedBoard.attempts.count true = mainCatalog.length) :=
  progress_accounting mainCatalog animalsMatchedBoard mainCatalog_wellFormed
    animalsMatchedBoard_reachable

/-! ## A game without failed attempts -/

theorem length_four (l : List String) (h : l.length = 4) :
    ∃ t1 t2 t3 t4, l = [t1, t2, t3, t4] := by
  rcases l with _ | ⟨t1, _ | ⟨t2, _ | ⟨t3, _ | ⟨t4, _ | ⟨t5, l⟩⟩⟩⟩⟩
  · simp at h
  · simp at h
  · simp at h
  · simp at h
  · exact ⟨t1, t2, t3, t4, rfl⟩
  · simp at h

/-- Playing whole categories one after the other on a board that holds their
words unselected: every group is matched and removed. -/
theorem clickWords_plays (order : List (String × List String)) (b : Board)
    (hnd : (texts b.words).Nodup) (hS : b.selectedWords = []) (ha : b.selectedAmount = 0)
    (hlen : ∀ p ∈ order, p.2.length = 4)
    (hmem : ∀ p ∈ order, ∀ t ∈ p.2, freshWord t p.1 ∈ b.words)
    (hdist : (order.flatMap (fun p => p.2)).Nodup) :
    clickWords b (order.flatMap (fun p => p.2)) = some
      ⟨b.words.filter (fun x => decide (x.word ∉ order.flatMap (fun p => p.2))), 0, [],
        order.foldl (fun m p => mapSet m p.1 (playedGroup p)) b.matchedWords,
        b.attempts ++ List.replicate order.length true⟩ := by
  induction order generalizing b with
  | nil =>
    cases b
    simp only at hS ha
    simp [clickWords, hS, ha]
  | cons p rest ih =>
    obtain ⟨t1, t2, t3, t4, hp⟩ := length_four p.2 (hlen p (List.mem_cons_self _ _))
    have hflat : (p :: rest).flatMap (fun p => p.2) =
        [t1, t2, t3, t4] ++ rest.flatMap (fun p => p.2) := by
      simp [List.flatMap_cons, hp]
    rw [hflat] at hdist ⊢
    obtain ⟨hd1, hd2, hd3⟩ := List.nodup_append.1 hdist
    have hin : ∀ t ∈ [t1, t2, t3, t4], freshWord t p.1 ∈ b.words := by
      intro t ht
      exact hmem p (List.mem_cons_self _ _) t (by rw [hp]; exact ht)
    have hsub := clickWords_submit b (freshWord t1 p.1) (freshWord t2 p.1) (freshWord t3 p.1)
      (freshWord t4 p.1) hnd hS ha
      (by
        intro s hs
        simp only [List.mem_cons, List.mem_singleton, List.not_mem_nil, or_false] at hs
        rcases hs with rfl | rfl | rfl | rfl
        · exact ⟨hin t1 (by simp), rfl⟩
        · exact ⟨hin t2 (by simp), rfl⟩
        · exact ⟨hin t3 (by simp), rfl⟩
        · exact ⟨hin t4 (by simp), rfl⟩)
      hd1
    have hall : [freshWord t1 p.1, freshWord t2 p.1, freshWord t3 p.1, freshWord t4 p.1].all
        (fun x => decide (x.category = (freshWord t1 p.1).category)) = true := by
      simp [freshWord]
    rw [if_pos hall] at hsub
    have htx : texts [freshWord t1 p.1, freshWord t2 p.1, freshWord t3 p.1, freshWord t4 p.1] =
        [t1, t2, t3, t4] := rfl
    have hgrp : [freshWord t1 p.1, freshWord t2 p.1, freshWord t3 p.1,
        freshWord t4 p.1].map Word.marked = playedGroup p := by
      simp [playedGroup, hp]
    rw [htx, hgrp] at hsub
    have hcat : (freshWord t1 p.1).category = p.1 := rfl
    rw [hcat] at hsub
    have hsub1 : clickWords b [t1, t2, t3, t4] = some
        ⟨b.words.filter (fun x => decide (x.word ∉ [t1, t2, t3, t4])), 0, [],
          mapSet b.matchedWords p.1 (playedGroup p), b.attempts ++ [true]⟩ := hsub
    rw [clickWords_append, hsub1, Option.some_bind]
    rw [ih _ (texts_filter_nodup _ _ hnd) rfl rfl
      (fun q hq => hlen q (List.mem_cons_of_mem _ hq)) ?_ hd2]
    · simp only [List.filter_filter, List.foldl_cons, List.length_cons, List.replicate_succ,
        List.append_assoc, List.singleton_append, Option.some.injEq, Board.mk.injEq, and_true,
        true_and]
      apply List.filter_congr
      intro x _
      by_cases h1 : x.word ∈ [t1, t2, t3, t4] <;>
        by_cases h2 : x.word ∈ rest.flatMap (fun p => p.2) <;>
        simp only [List.mem_append, h1, h2, not_true_eq_false, not_false_eq_true, decide_True,
          decide_False, Bool.and_self, Bool.and_true, Bool.and_false, or_self, or_true,
          true_or]
    · intro q hq t ht
      refine List.mem_filter.2 ⟨hmem q (List.mem_cons_of_mem _ hq) t ht, ?_⟩
      have hnot : t ∉ [t1, t2, t3, t4] := by
        intro h1
        exact hd3 h1 (List.mem_flatMap.2 ⟨q, hq, ht⟩)
      simpa [freshWord] using hnot

theorem foldl_mapSet_other (order : List (String × List String))
    (m : List (String × List Word)) (k : String) (hk : k ∉ order.map Prod.fst) :
    mapGet (order.foldl (fun m p => mapSet m p.1 (playedGroup p)) m) k = mapGet m k := by
  induction order generalizing m with
  | nil => rfl
  | cons p rest ih =>
    have h1 : k ≠ p.1 := fun h => hk (by simp [h])
    have h2 : k ∉ rest.map Prod.fst := fun h => hk (by simp [h])
    rw [List.foldl_cons, ih _ h2, mapGet_mapSet_other _ _ _ _ h1]

theorem foldl_mapSet_get (order : List (String × List String))
    (m : List (String × List Word)) (hk : (order.map Prod.fst).Nodup)
    (p : String × List String) (hp : p ∈ order) :
    mapGet (order.foldl (fun m p => mapSet m p.1 (playedGroup p)) m) p.1 =
      some (playedGroup p) := by
  induction order generalizing m with
  | nil => cases hp
  | cons q rest ih =>
    have hd := List.nodup_cons.1 hk
    rw [List.foldl_cons]
    rcases List.mem_cons.1 hp with rfl | h
    · rw [foldl_mapSet_other rest _ _ hd.1, mapGet_mapSet_same]
    · exact ih _ hd.2 h

theorem plays_pointwise (order visited : List (String × List String))
    (h : List.Forall₂ (fun p e => p.1 = e.1 ∧ p.2.Perm e.2) order visited) :
    order.map Prod.fst = visited.map Prod.fst ∧
    (order.flatMap (fun p => p.2)).Perm (visited.flatMap (fun p => p.2)) ∧
    (∀ p ∈ order, ∃ e ∈ visited, p.1 = e.1 ∧ p.2.Perm e.2) ∧
    (∀ e ∈ visited, ∃ p ∈ order, p.1 = e.1 ∧ p.2.Perm e.2) := by
  induction h with
  | nil => simp
  | @cons p e ps es hpe _ ih =>
    obtain ⟨i1, i2, i3, i4⟩ := ih
    refine ⟨by simp [hpe.1, i1], ?_, ?_, ?_⟩
    · simp only [List.flatMap_cons]
      exact List.Perm.append hpe.2 i2
    · intro q hq
      rcases List.mem_cons.1 hq with rfl | hq1
      · exact ⟨e, List.mem_cons_self _ _, hpe⟩
      · obtain ⟨e1, he1, h1⟩ := i3 q hq1
        exact ⟨e1, List.mem_cons_of_mem _ he1, h1⟩
    · intro e1 he1
      rcases List.mem_cons.1 he1 with rfl | he2
      · exact ⟨p, List.mem_cons_self _ _, hpe⟩
      · obtain ⟨q, hq, h1⟩ := i4 e1 he2
        exact ⟨q, List.mem_cons_of_mem _ hq, h1⟩

theorem catalogWords_texts (catalog : List (String × List String)) :
    (catalogWords catalog).map Prod.fst = catalog.flatMap (fun e => e.2) := by
  induction catalog with
  | nil => rfl
  | cons e rest ih =>
    have hc : catalogWords (e :: rest) = e.2.map (fun t => (t, e.1)) ++ catalogWords rest := by
      simp [catalogWords]
    rw [hc, List.map_append, ih, List.flatMap_cons, List.map_map]
    congr 1
    exact List.map_id _

theorem texts_playedGroup (p : String × List String) : texts (playedGroup p) = p.2 := by
  simp only [texts, playedGroup, List.map_map]
  exact List.map_id _

/-- C12: on the board assembled from a well-formed catalog, clicking the 4 words
of each category in turn, categories in any order and words within a category
in any order, ends with `words` empty, one `true` in `attempts` per category
(four for four categories) and nothing else, a group for every category holding
its words in the order played, an empty selection and selected count 0; and on
the catalog of `main`, after dog, cat, bird, fish, `attempts` is [true] and
`matchedWords` is animals: dog, cat, bird, fish. -/
theorem perfect_game (catalog order : List (String × List String))
    (hwf : WellFormed catalog) (hplay : PlaysCatalog catalog order) :
    (∃ b1, clickWords (assembleBoard catalog) (order.flatMap (fun p => p.2)) = some b1 ∧
      b1.words = [] ∧ b1.attempts = List.replicate catalog.length true ∧
      (∀ p ∈ order, mapGet b1.matchedWords p.1 = some (playedGroup p)) ∧
      (∀ e ∈ catalog, ∃ g, mapGet b1.matchedWords e.1 = some g ∧ (texts g).Perm e.2) ∧
      b1.selectedWords = [] ∧ b1.selectedAmount = 0) ∧
    (clickWords (assembleBoard mainCatalog) ["dog", "cat", "bird", "fish"]).map
      (fun b => (b.attempts, b.matchedWords.map (fun e => (e.1, texts e.2)))) =
      some ([true], [("animals", ["dog", "cat", "bird", "fish"])]) := by
  refine ⟨?_, by decide⟩
  obtain ⟨visited, hperm, hfa⟩ := hplay
  obtain ⟨f1, f2, f3, f4⟩ := plays_pointwise order visited hfa
  obtain ⟨h1, h2, h3, h4⟩ := assembleBoard_frame catalog
  have hwords := assembleBoard_words catalog hwf.1
  have htexts : texts (assembleBoard catalog).words = catalog.flatMap (fun e => e.2) := by
    rw [texts_eq_map_ident, assembleBoard_ident catalog hwf.1, catalogWords_texts]
  have hcatnd : (catalog.flatMap (fun e => e.2)).Nodup := by
    rw [← catalogWords_texts]; exact hwf.2.2
  have hflat : (order.flatMap (fun p => p.2)).Perm (catalog.flatMap (fun e => e.2)) :=
    f2.trans (List.Perm.flatMap_right _ hperm)
  have hentry : ∀ p ∈ order, ∃ e ∈ catalog, p.1 = e.1 ∧ p.2.Perm e.2 := by
    intro p hp
    obtain ⟨e, he, h⟩ := f3 p hp
    exact ⟨e, hperm.mem_iff.1 he, h⟩
  have hkeys : (order.map Prod.fst).Nodup := by
    rw [f1]
    exact ((hperm.map Prod.fst).nodup_iff).2 hwf.2.1
  have hrun := clickWords_plays order (assembleBoard catalog)
    (by rw [htexts]; exact hcatnd) h2 h1
    (by
      intro p hp
      obtain ⟨e, he, _, hpe⟩ := hentry p hp
      rw [hpe.length_eq]
      exact hwf.1 e he)
    (by
      intro p hp t ht
      obtain ⟨e, he, hk, hpe⟩ := hentry p hp
      rw [hwords, hk]
      exact List.mem_flatMap.2 ⟨e, he, List.mem_map_of_mem _ (hpe.mem_iff.1 ht)⟩)
    (hflat.nodup_iff.2 hcatnd)
  refine ⟨_, hrun, ?_, ?_, ?_, ?_, rfl, rfl⟩
  · rw [List.filter_eq_nil_iff]
    intro x hx
    have : x.word ∈ order.flatMap (fun p => p.2) := by
      rw [hflat.mem_iff, ← htexts]
      exact List.mem_map_of_mem _ hx
    simp [this]
  · show (assembleBoard catalog).attempts ++ List.replicate order.length true = _
    rw [h4, List.nil_append, hfa.length_eq, hperm.length_eq]
  · intro p hp
    exact foldl_mapSet_get order _ hkeys p hp
  · intro e he
    obtain ⟨p, hp, hk, hpe⟩ := f4 e (hperm.mem_iff.2 he)
    refine ⟨playedGroup p, ?_, ?_⟩
    · rw [← hk]
      exact foldl_mapSet_get order _ hkeys p hp
    · rw [texts_playedGroup]
      exact hpe

theorem mainReplay_plays : PlaysCatalog mainCatalog mainReplay :=
  ⟨[("shapes", ["circle", "square", "triangle", "rectangle"]),
    ("animals", ["dog", "cat", "bird", "fish"]),
    ("fruits", ["apple", "banana", "watermelon", "grape"]),
    ("colors", ["red", "blue", "green", "yellow"])],
   by decide,
   List.Forall₂.cons ⟨rfl, by decide⟩ (List.Forall₂.cons ⟨rfl, by decide⟩
     (List.Forall₂.cons ⟨rfl, by decide⟩ (List.Forall₂.cons ⟨rfl, by decide⟩
       List.Forall₂.nil)))⟩

theorem perfect_game_witness :
    (∃ b1, clickWords (assembleBoard mainCatalog) (mainReplay.flatMap (fun p => p.2)) =
        some b1 ∧
      b1.words = [] ∧ b1.attempts = List.replicate mainCatalog.length true ∧
      (∀ p ∈ mainReplay, mapGet b1.matchedWords p.1 = some (playedGroup p)) ∧
      (∀ e ∈ mainCatalog, ∃ g, mapGet b1.matchedWords e.1 = some g ∧ (texts g).Perm e.2) ∧
      b1.selectedWords = [] ∧ b1.selectedAmount = 0) ∧
    (clickWords (assembleBoard mainCatalog) ["dog", "cat", "bird", "fish"]).map
      (fun b => (b.attempts, b.matchedWords.map (fun e => (e.1, texts e.2)))) =
      some ([true], [("animals", ["dog", "cat", "bird", "fish"])]) :=
  perfect_game mainCatalog mainReplay mainCatalog_wellFormed mainReplay_plays

end Cinexo
